import Mathlib

/-!
Shallow embedding of `update_springboot_structure.py`.

The script enforces a conventional Spring Boot directory layout: given a dotted
base package on the command line, it creates a fixed list of sub-package
directories under `src/main/java` and `src/test/java`, the `static` and
`templates` resource folders, a default `application.properties`, and it keeps
a `.gitkeep` placeholder file in exactly those processed directories that have
no other entries.

The filesystem is modelled as a finite association list from paths (lists of
path components) to entries (directories, or files with string contents).
Each filesystem primitive used by the script (`os.path.exists`, `os.makedirs`,
`os.listdir`, `os.remove`, `open(..., "w")`) is embedded as an executable
function returning the new state together with an optional error, mirroring
the Python exception that the corresponding call would raise; an uncaught
error aborts the rest of the run, keeping the state reached so far.
-/

abbrev Name := String
abbrev FsPath := List Name

/-- The reserved placeholder marker name, `".gitkeep"` in the script. -/
def gitkeepName : Name := ".gitkeep"

/-- A filesystem entry: a directory or a file with contents. -/
inductive Entry where
  | dir : Entry
  | file (contents : String) : Entry
deriving DecidableEq, Repr

/-- A filesystem state: a finite list of path/entry associations. -/
structure FS where
  entries : List (FsPath × Entry)
deriving DecidableEq, Repr

/-- Look up the entry stored at a path (first match wins). -/
def lookupEntry : List (FsPath × Entry) → FsPath → Option Entry
  | [], _ => none
  | (q, e) :: rest, p => if q = p then some e else lookupEntry rest p

def FS.lookup (fs : FS) (p : FsPath) : Option Entry := lookupEntry fs.entries p

/-- `os.path.exists`. -/
def FS.pathExists (fs : FS) (p : FsPath) : Bool := (fs.lookup p).isSome

def FS.isDir (fs : FS) (p : FsPath) : Bool :=
  match fs.lookup p with
  | some .dir => true
  | _ => false

def FS.isFile (fs : FS) (p : FsPath) : Bool :=
  match fs.lookup p with
  | some (.file _) => true
  | _ => false

def FS.insert (fs : FS) (p : FsPath) (e : Entry) : FS := ⟨(p, e) :: fs.entries⟩

/-- Remove every association stored under a path. -/
def eraseEntries : List (FsPath × Entry) → FsPath → List (FsPath × Entry)
  | [], _ => []
  | (q, e) :: rest, p =>
    if q = p then eraseEntries rest p else (q, e) :: eraseEntries rest p

def FS.erase (fs : FS) (p : FsPath) : FS := ⟨eraseEntries fs.entries p⟩

/-- If `p` is an immediate child of directory `d`, its final component. -/
def directChild (d p : FsPath) : Option Name :=
  if p.dropLast = d then p.getLast? else none

/-- Names of the immediate children of `d`, in entry-list order:
the result of `os.listdir` on `d`. -/
def childNamesOf : List (FsPath × Entry) → FsPath → List Name
  | [], _ => []
  | (q, _) :: rest, d =>
    match directChild d q with
    | some n => n :: childNamesOf rest d
    | none => childNamesOf rest d

def childNames (fs : FS) (d : FsPath) : List Name := childNamesOf fs.entries d

/-- The listing filter `[f for f in os.listdir(directory) if f != ".gitkeep"]`. -/
def filterNotGitkeep : List Name → List Name
  | [] => []
  | n :: rest =>
    if n = gitkeepName then filterNotGitkeep rest else n :: filterNotGitkeep rest

/-- Immediate entries of `d` other than the reserved marker name. -/
def childrenExcept (fs : FS) (d : FsPath) : List Name :=
  filterNotGitkeep (childNames fs d)

/-- The OS errors the script can run into (as Python exceptions). -/
inductive OSError where
  | fileExists : OSError
  | fileNotFound : OSError
  | notADirectory : OSError
  | isADirectory : OSError
deriving DecidableEq, Repr

/-- `os.mkdir`: create a single directory whose parent must be a directory
(or the implicit root `[]`). -/
def FS.mkdir (fs : FS) (p : FsPath) : FS × Option OSError :=
  if fs.pathExists p then (fs, some .fileExists)
  else if p.dropLast = [] ∨ fs.isDir p.dropLast then (fs.insert p .dir, none)
  else if fs.pathExists p.dropLast then (fs, some .notADirectory)
  else (fs, some .fileNotFound)

/-- `os.makedirs`, recursion expressed structurally on a fuel argument: each
recursive call drops the last path component, so a fuel equal to the path
length never runs out before the recursion bottoms out. -/
def makedirsFuel : Nat → FS → FsPath → FS × Option OSError
  | 0, fs, p => fs.mkdir p
  | n + 1, fs, p =>
    if p.dropLast ≠ [] ∧ fs.pathExists p.dropLast = false then
      match makedirsFuel n fs p.dropLast with
      | (fs1, some e) => (fs1, some e)
      | (fs1, none) => fs1.mkdir p
    else fs.mkdir p

/-- `os.makedirs`: recursively create the missing ancestors, then the path
itself. -/
def FS.makedirs (fs : FS) (p : FsPath) : FS × Option OSError :=
  makedirsFuel p.length fs p

/-- `os.remove`: delete a file; raises on a directory or a missing path. -/
def FS.removeFile (fs : FS) (p : FsPath) : FS × Option OSError :=
  match fs.lookup p with
  | some (.file _) => (fs.erase p, none)
  | some .dir => (fs, some .isADirectory)
  | none => (fs, some .fileNotFound)

/-- `open(p, "w")` followed by writing `contents`: requires the parent to be a
directory (or the root), truncates any existing file, raises on a directory. -/
def FS.writeFile (fs : FS) (p : FsPath) (contents : String) : FS × Option OSError :=
  if p.dropLast = [] ∨ fs.isDir p.dropLast then
    match fs.lookup p with
    | some .dir => (fs, some .isADirectory)
    | _ => ((fs.erase p).insert p (.file contents), none)
  else if fs.pathExists p.dropLast then (fs, some .notADirectory)
  else (fs, some .fileNotFound)

/-- `os.listdir`: the immediate child names of a directory; raises
`NotADirectoryError` on a file and `FileNotFoundError` on a missing path. -/
def FS.listdir (fs : FS) (d : FsPath) : Except OSError (List Name) :=
  match fs.lookup d with
  | some .dir => .ok (childNames fs d)
  | some (.file _) => .error .notADirectory
  | none => .error .fileNotFound

/-- The Placeholder Reconciler `handle_gitkeep(directory)`: adds the marker
when the directory has no other entries, removes it when it does. -/
def handle_gitkeep (fs : FS) (directory : FsPath) : FS × Option OSError :=
  let gitkeep := directory ++ [gitkeepName]
  match fs.listdir directory with
  | .error e => (fs, some e)
  | .ok names =>
    let files := filterNotGitkeep names
    if files = [] then
      if fs.pathExists gitkeep then (fs, none)
      else fs.writeFile gitkeep ""
    else
      if fs.pathExists gitkeep then fs.removeFile gitkeep
      else (fs, none)

/-- The Directory Synchronizer `create_directory(path)`: create the directory
(with ancestors) when missing, then reconcile the marker. -/
def create_directory (fs : FS) (path : FsPath) : FS × Option OSError :=
  if fs.pathExists path = false then
    match fs.makedirs path with
    | (fs1, some e) => (fs1, some e)
    | (fs1, none) => handle_gitkeep fs1 path
  else handle_gitkeep fs path

/-- Split a character list on `'.'` (auxiliary accumulator form). -/
def splitOnDotAux : List Char → List Char → List Name
  | [], acc => [String.mk acc.reverse]
  | c :: rest, acc =>
    if c = '.' then String.mk acc.reverse :: splitOnDotAux rest []
    else splitOnDotAux rest (c :: acc)

/-- The Path Resolver: `base_package.replace(".", os.sep)` followed by path
joining resolves the dotted namespace to its dot-separated segments used as
path components. -/
def packagePath (s : String) : FsPath := splitOnDotAux s.data []

/-- The fixed list of sub-package names. -/
def packages : List String :=
  ["controller", "service", "aspect", "repository", "model", "dto",
   "mapper", "config", "exception", "util", "factory", "job"]

def src_main_java : FsPath := ["src", "main", "java"]
def src_test_java : FsPath := ["src", "test", "java"]
def resources_dir : FsPath := ["src", "main", "resources"]

/-- The directories the driver passes to `create_directory`, in program
order: for each package its main path then its test path, then the two
resource folders. -/
def targets (basePath : FsPath) : List FsPath :=
  (packages.flatMap fun p =>
    [src_main_java ++ basePath ++ packagePath p,
     src_test_java ++ basePath ++ packagePath p])
  ++ [resources_dir ++ ["static"], resources_dir ++ ["templates"]]

def application_properties : FsPath := resources_dir ++ ["application.properties"]

def defaultPropertiesContent : String := "# Spring Boot configuration file\n"

/-- Run `create_directory` on each path in turn; an uncaught error aborts the
remaining iterations, keeping the state reached so far. -/
def execSync : FS → List FsPath → FS × Option OSError
  | fs, [] => (fs, none)
  | fs, p :: rest =>
    match create_directory fs p with
    | (fs1, some e) => (fs1, some e)
    | (fs1, none) => execSync fs1 rest

/-- The final step of the driver: create `application.properties` with the
default content if it is absent. -/
def appPropertiesStep (fs : FS) : FS × Option OSError :=
  if fs.pathExists application_properties then (fs, none)
  else fs.writeFile application_properties defaultPropertiesContent

/-- How a run terminates: normally, by `sys.exit`, or by an uncaught
exception. -/
inductive Outcome where
  | ok : Outcome
  | exited (code : Nat) : Outcome
  | raised (e : OSError) : Outcome
deriving DecidableEq, Repr

/-- Steps 4 to 7 of the script, for an already resolved base package path:
the precondition check on the main-source base directory, the pass over all
targets, and the configuration-file step. -/
def runCore (basePath : FsPath) (fs : FS) : FS × Outcome :=
  if fs.pathExists (src_main_java ++ basePath) = false then
    (fs, .exited 1)
  else
    match execSync fs (targets basePath) with
    | (fs1, some e) => (fs1, .raised e)
    | (fs1, none) =>
      match appPropertiesStep fs1 with
      | (fs2, some e) => (fs2, .raised e)
      | (fs2, none) => (fs2, .ok)

/-- The whole program on `sys.argv` (program name included) and an initial
filesystem state. -/
def runProgram (argv : List String) (fs : FS) : FS × Outcome :=
  if argv.length ≠ 2 then (fs, .exited 1)
  else runCore (packagePath (argv.getD 1 "")) fs

/-- The reconciler's invariant on a directory: present and a directory, and
the marker path is present exactly when there are no other entries. -/
def gitkeepInvariant (fs : FS) (d : FsPath) : Prop :=
  fs.isDir d = true ∧
    (fs.pathExists (d ++ [gitkeepName]) = true ↔ childrenExcept fs d = [])

/-- Well-formed filesystem: every entry's parent is the root or a directory. -/
def FS.WF (fs : FS) : Prop :=
  ∀ pe ∈ fs.entries, pe.1.dropLast = [] ∨ fs.isDir pe.1.dropLast = true

/-- The 24 root/package pairs of the java-tree targets, in program order. -/
def javaPairs : List (FsPath × FsPath) :=
  [(["src", "main", "java"], ["controller"]), (["src", "test", "java"], ["controller"]),
   (["src", "main", "java"], ["service"]), (["src", "test", "java"], ["service"]),
   (["src", "main", "java"], ["aspect"]), (["src", "test", "java"], ["aspect"]),
   (["src", "main", "java"], ["repository"]), (["src", "test", "java"], ["repository"]),
   (["src", "main", "java"], ["model"]), (["src", "test", "java"], ["model"]),
   (["src", "main", "java"], ["dto"]), (["src", "test", "java"], ["dto"]),
   (["src", "main", "java"], ["mapper"]), (["src", "test", "java"], ["mapper"]),
   (["src", "main", "java"], ["config"]), (["src", "test", "java"], ["config"]),
   (["src", "main", "java"], ["exception"]), (["src", "test", "java"], ["exception"]),
   (["src", "main", "java"], ["util"]), (["src", "test", "java"], ["util"]),
   (["src", "main", "java"], ["factory"]), (["src", "test", "java"], ["factory"]),
   (["src", "main", "java"], ["job"]), (["src", "test", "java"], ["job"])]

/-- The initial filesystem of the worked example: a project root whose only
content is the pre-existing `src/main/java/com/example/demo` chain. -/
def demoFS0 : FS :=
  ⟨[(["src"], .dir), (["src", "main"], .dir), (["src", "main", "java"], .dir),
    (["src", "main", "java", "com"], .dir),
    (["src", "main", "java", "com", "example"], .dir),
    (["src", "main", "java", "com", "example", "demo"], .dir)]⟩

/-- The command line of the worked example. -/
def demoArgv : List String := ["update_springboot_structure.py", "com.example.demo"]

/-- The final state of the worked example's run. -/
def demoFS1 : FS := (runProgram demoArgv demoFS0).1

/-! ### Basic path and association-list lemmas -/

theorem dropLast_append_single (d : FsPath) (n : Name) : (d ++ [n]).dropLast = d := by
  induction d with
  | nil => rfl
  | cons a l ih =>
    cases l with
    | nil => rfl
    | cons b m => simpa [List.dropLast] using ih

theorem getLast?_append_single (d : FsPath) (n : Name) : (d ++ [n]).getLast? = some n := by
  induction d with
  | nil => rfl
  | cons a l ih =>
    cases l with
    | nil => rfl
    | cons b m => simpa [List.getLast?] using ih

theorem append_single_ne_self (d : FsPath) (n : Name) : d ++ [n] ≠ d := by
  intro h
  have h2 := congrArg List.length h
  simp at h2

theorem eq_dropLast_append_of_getLast? {p : FsPath} {n : Name}
    (h : p.getLast? = some n) : p = p.dropLast ++ [n] := by
  induction p with
  | nil => simp at h
  | cons a l ih =>
    cases l with
    | nil =>
      simp [List.getLast?] at h
      simp [h]
    | cons b m =>
      have h2 : (b :: m).getLast? = some n := by
        simpa [List.getLast?] using h
      have h3 := ih h2
      calc a :: b :: m = a :: ((b :: m).dropLast ++ [n]) := by rw [← h3]
        _ = (a :: b :: m).dropLast ++ [n] := by simp [List.dropLast]

theorem directChild_append_self (d : FsPath) (n : Name) :
    directChild d (d ++ [n]) = some n := by
  simp [directChild, dropLast_append_single, getLast?_append_single]

theorem directChild_eq_some {d p : FsPath} {n : Name} :
    directChild d p = some n ↔ p = d ++ [n] := by
  constructor
  · intro h
    unfold directChild at h
    split at h
    · rename_i hd
      have := eq_dropLast_append_of_getLast? h
      rw [hd] at this
      exact this
    · simp at h
  · intro h
    rw [h]
    exact directChild_append_self d n

theorem append_single_inj {d d' : FsPath} {n n' : Name}
    (h : d ++ [n] = d' ++ [n']) : d = d' ∧ n = n' := by
  have h1 : directChild d' (d ++ [n]) = some n' := by
    rw [h]; exact directChild_append_self d' n'
  have h2 := directChild_eq_some.mp h1
  have h3 : d = d' := by
    have := congrArg List.dropLast h2
    simpa [dropLast_append_single] using this
  refine ⟨h3, ?_⟩
  subst h3
  exact List.append_cancel_left h2 |> List.singleton_injective

theorem lookup_insert_self (fs : FS) (p : FsPath) (e : Entry) :
    (fs.insert p e).lookup p = some e := by
  simp [FS.insert, FS.lookup, lookupEntry]

theorem lookup_insert_ne (fs : FS) (q p : FsPath) (e : Entry) (h : q ≠ p) :
    (fs.insert q e).lookup p = fs.lookup p := by
  simp [FS.insert, FS.lookup, lookupEntry, h]

theorem lookupEntry_erase (l : List (FsPath × Entry)) (q p : FsPath) :
    lookupEntry (eraseEntries l q) p = if q = p then none else lookupEntry l p := by
  induction l with
  | nil => simp [eraseEntries, lookupEntry]
  | cons pe rest ih =>
    obtain ⟨k, e⟩ := pe
    by_cases hkq : k = q
    · subst hkq
      rw [eraseEntries, if_pos rfl, ih]
      by_cases hqp : k = p
      · simp [hqp]
      · simp [lookupEntry, hqp]
    · rw [eraseEntries, if_neg hkq]
      by_cases hkp : k = p
      · have hqp : q ≠ p := fun h => hkq (hkp.trans h.symm)
        simp [lookupEntry, hkp, hqp]
      · simp [lookupEntry, hkp, ih]

theorem lookup_erase (fs : FS) (q p : FsPath) :
    (fs.erase q).lookup p = if q = p then none else fs.lookup p := by
  simp [FS.erase, FS.lookup, lookupEntry_erase]

theorem erase_of_lookup_none {fs : FS} {p : FsPath} (h : fs.lookup p = none) :
    fs.erase p = fs := by
  obtain ⟨l⟩ := fs
  simp only [FS.erase, FS.mk.injEq]
  simp only [FS.lookup] at h
  induction l with
  | nil => rfl
  | cons pe rest ih =>
    obtain ⟨k, e⟩ := pe
    by_cases hk : k = p
    · subst hk
      simp [lookupEntry] at h
    · rw [lookupEntry, if_neg hk] at h
      rw [eraseEntries, if_neg hk, ih h]

theorem lookup_some_mem {fs : FS} {p : FsPath} {v : Entry}
    (h : fs.lookup p = some v) : (p, v) ∈ fs.entries := by
  obtain ⟨l⟩ := fs
  simp only [FS.lookup] at h
  induction l with
  | nil => simp [lookupEntry] at h
  | cons pe rest ih =>
    obtain ⟨k, e⟩ := pe
    by_cases hk : k = p
    · subst hk
      rw [lookupEntry, if_pos rfl] at h
      cases h
      exact List.mem_cons_self _ _
    · rw [lookupEntry, if_neg hk] at h
      exact List.mem_cons_of_mem _ (ih h)

theorem lookupEntry_append_none (a b : List (FsPath × Entry)) (p : FsPath) :
    lookupEntry (a ++ b) p = none ↔ lookupEntry a p = none ∧ lookupEntry b p = none := by
  induction a with
  | nil => simp [lookupEntry]
  | cons pe rest ih =>
    obtain ⟨k, e⟩ := pe
    by_cases hk : k = p
    · simp [lookupEntry, hk]
    · simpa [lookupEntry, hk] using ih

theorem pathExists_false_iff (fs : FS) (p : FsPath) :
    fs.pathExists p = false ↔ fs.lookup p = none := by
  unfold FS.pathExists
  cases fs.lookup p <;> simp

theorem pathExists_true_iff (fs : FS) (p : FsPath) :
    fs.pathExists p = true ↔ ∃ v, fs.lookup p = some v := by
  unfold FS.pathExists
  cases fs.lookup p <;> simp

theorem isDir_iff (fs : FS) (p : FsPath) :
    fs.isDir p = true ↔ fs.lookup p = some .dir := by
  unfold FS.isDir
  cases h : fs.lookup p with
  | none => simp
  | some e => cases e <;> simp

/-! ### Children-listing frame lemmas -/

theorem childNamesOf_append (a b : List (FsPath × Entry)) (d : FsPath) :
    childNamesOf (a ++ b) d = childNamesOf a d ++ childNamesOf b d := by
  induction a with
  | nil => simp [childNamesOf]
  | cons pe rest ih =>
    obtain ⟨k, e⟩ := pe
    cases h : directChild d k <;> simp [childNamesOf, h, ih]

theorem filterNotGitkeep_append (a b : List Name) :
    filterNotGitkeep (a ++ b) = filterNotGitkeep a ++ filterNotGitkeep b := by
  induction a with
  | nil => simp [filterNotGitkeep]
  | cons n rest ih =>
    by_cases h : n = gitkeepName <;> simp [filterNotGitkeep, h, ih]

theorem mem_filterNotGitkeep {a : List Name} {n : Name} :
    n ∈ filterNotGitkeep a ↔ n ∈ a ∧ n ≠ gitkeepName := by
  induction a with
  | nil => simp [filterNotGitkeep]
  | cons m rest ih =>
    rw [filterNotGitkeep]
    by_cases h : m = gitkeepName
    · rw [if_pos h, ih]
      subst h
      simp only [List.mem_cons]
      constructor
      · rintro ⟨h1, h2⟩
        exact ⟨Or.inr h1, h2⟩
      · rintro ⟨h1 | h1, h2⟩
        · exact absurd h1 h2
        · exact ⟨h1, h2⟩
    · rw [if_neg h]
      simp only [List.mem_cons, ih]
      constructor
      · rintro (rfl | ⟨h1, h2⟩)
        · exact ⟨Or.inl rfl, h⟩
        · exact ⟨Or.inr h1, h2⟩
      · rintro ⟨rfl | h1, h2⟩
        · exact Or.inl rfl
        · exact Or.inr ⟨h1, h2⟩

/-- Inserting an entry whose name is the reserved marker name never changes
the non-marker child listing of any directory. -/
theorem childrenExcept_insert_gk_end {r : FsPath} (fs : FS) (d : FsPath) (e : Entry)
    (h : r.getLast? = some gitkeepName) :
    childrenExcept (fs.insert r e) d = childrenExcept fs d := by
  unfold childrenExcept childNames FS.insert
  simp only
  rw [childNamesOf]
  cases hdc : directChild d r with
  | none => rfl
  | some n =>
    have : n = gitkeepName := by
      unfold directChild at hdc
      split at hdc
      · rw [h] at hdc; cases hdc; rfl
      · simp at hdc
    subst this
    simp [filterNotGitkeep]

/-- Inserting an entry that is not an immediate child of `d` never changes
`d`'s child listing. -/
theorem childNames_insert_not_child {r : FsPath} (fs : FS) (d : FsPath) (e : Entry)
    (h : directChild d r = none) :
    childNames (fs.insert r e) d = childNames fs d := by
  unfold childNames FS.insert
  simp only
  rw [childNamesOf, h]

/-- Erasing an entry whose name is the reserved marker name never changes
the non-marker child listing of any directory. -/
theorem childrenExcept_erase_gk_end {r : FsPath} (fs : FS) (d : FsPath)
    (h : r.getLast? = some gitkeepName) :
    childrenExcept (fs.erase r) d = childrenExcept fs d := by
  obtain ⟨l⟩ := fs
  unfold childrenExcept childNames FS.erase
  simp only
  induction l with
  | nil => rfl
  | cons pe rest ih =>
    obtain ⟨k, e⟩ := pe
    by_cases hk : k = r
    · subst hk
      rw [eraseEntries, if_pos rfl, ih]
      rw [childNamesOf]
      cases hdc : directChild d k with
      | none => rfl
      | some n =>
        have : n = gitkeepName := by
          unfold directChild at hdc
          split at hdc
          · rw [h] at hdc; cases hdc; rfl
          · simp at hdc
        subst this
        simp [filterNotGitkeep]
    · rw [eraseEntries, if_neg hk, childNamesOf, childNamesOf]
      cases hdc : directChild d k with
      | none => exact ih
      | some n =>
        by_cases hn : n = gitkeepName
        · simp [filterNotGitkeep, hn, ih]
        · simp [filterNotGitkeep, hn, ih]

/-- The children of `d` when a fresh direct child entry `d ++ [n]` is added. -/
theorem childNames_insert_child (fs : FS) (d : FsPath) (n : Name) (e : Entry) :
    childNames (fs.insert (d ++ [n]) e) d = n :: childNames fs d := by
  unfold childNames FS.insert
  simp only
  rw [childNamesOf, directChild_append_self]

/-! ### mkdir and makedirs -/

theorem mkdir_cases (fs : FS) (p : FsPath) :
    (∃ e, fs.mkdir p = (fs, some e)) ∨
    (fs.lookup p = none ∧ (p.dropLast = [] ∨ fs.isDir p.dropLast = true) ∧
      fs.mkdir p = (fs.insert p .dir, none)) := by
  unfold FS.mkdir
  by_cases h1 : fs.pathExists p
  · exact Or.inl ⟨.fileExists, by simp [h1]⟩
  · have hnone : fs.lookup p = none := (pathExists_false_iff fs p).mp (by simpa using h1)
    by_cases h2 : p.dropLast = [] ∨ fs.isDir p.dropLast
    · refine Or.inr ⟨hnone, ?_, by simp [h1, h2]⟩
      rcases h2 with h2 | h2
      · exact Or.inl h2
      · exact Or.inr h2
    · by_cases h3 : fs.pathExists p.dropLast
      · exact Or.inl ⟨.notADirectory, by simp [h1, h2, h3]⟩
      · exact Or.inl ⟨.fileNotFound, by simp [h1, h2, h3]⟩

theorem mkdir_error_no_mutation {fs : FS} {p : FsPath} {e : OSError}
    (h : (fs.mkdir p).2 = some e) : (fs.mkdir p).1 = fs := by
  rcases mkdir_cases fs p with ⟨e', he⟩ | ⟨_, _, he⟩
  · rw [he]
  · rw [he] at h ⊢
    simp at h

theorem mkdir_success {fs : FS} {p : FsPath}
    (h : (fs.mkdir p).2 = none) :
    fs.lookup p = none ∧ (p.dropLast = [] ∨ fs.isDir p.dropLast = true) ∧
      (fs.mkdir p).1 = fs.insert p .dir := by
  rcases mkdir_cases fs p with ⟨e', he⟩ | ⟨h1, h2, he⟩
  · rw [he] at h; simp at h
  · exact ⟨h1, h2, by rw [he]⟩

theorem dropLast_prefix_self (p : FsPath) : p.dropLast <+: p := by
  induction p with
  | nil => exact ⟨[], rfl⟩
  | cons a l ih =>
    cases l with
    | nil => exact ⟨[a], rfl⟩
    | cons b m =>
      obtain ⟨t, ht⟩ := ih
      refine ⟨t, ?_⟩
      show (a :: b :: m).dropLast ++ t = a :: b :: m
      simp only [List.dropLast, List.cons_append, List.cons.injEq, true_and]
      simpa using ht

theorem lookupEntry_none_of_keys {l : List (FsPath × Entry)} {r : FsPath}
    (h : ∀ qe ∈ l, qe.1 ≠ r) : lookupEntry l r = none := by
  induction l with
  | nil => rfl
  | cons qe rest ih =>
    obtain ⟨k, e⟩ := qe
    rw [lookupEntry, if_neg (h (k, e) (List.mem_cons_self _ _))]
    exact ih fun x hx => h x (List.mem_cons_of_mem _ hx)

theorem lookupEntry_append_right {nw rest : List (FsPath × Entry)} {p : FsPath}
    (h : lookupEntry nw p = none) : lookupEntry (nw ++ rest) p = lookupEntry rest p := by
  induction nw with
  | nil => rfl
  | cons qe l ih =>
    obtain ⟨k, e⟩ := qe
    by_cases hk : k = p
    · rw [lookupEntry, if_pos hk] at h
      exact absurd h (by simp)
    · rw [lookupEntry, if_neg hk] at h
      rw [List.cons_append, lookupEntry, if_neg hk]
      exact ih h

theorem childNamesOf_nil_of {l : List (FsPath × Entry)} {d : FsPath}
    (h : ∀ qe ∈ l, directChild d qe.1 = none) : childNamesOf l d = [] := by
  induction l with
  | nil => rfl
  | cons qe rest ih =>
    obtain ⟨k, e⟩ := qe
    rw [childNamesOf, h (k, e) (List.mem_cons_self _ _)]
    exact ih fun x hx => h x (List.mem_cons_of_mem _ hx)

/-- Structure of a `makedirs` run: it only prepends fresh directory entries
whose paths are prefixes of the requested path. -/
theorem makedirsFuel_entries (n : Nat) (fs : FS) (p : FsPath) :
    ∃ nw, (makedirsFuel n fs p).1.entries = nw ++ fs.entries ∧
      ∀ qe ∈ nw, qe.1 <+: p ∧ qe.2 = Entry.dir ∧ fs.lookup qe.1 = none := by
  induction n generalizing fs p with
  | zero =>
    rcases mkdir_cases fs p with ⟨e, he⟩ | ⟨h1, _, he⟩
    · exact ⟨[], by simp [makedirsFuel, he], by simp⟩
    · refine ⟨[(p, .dir)], by simp [makedirsFuel, he, FS.insert], ?_⟩
      intro qe hqe
      simp only [List.mem_singleton] at hqe
      subst hqe
      exact ⟨⟨[], by simp⟩, rfl, h1⟩
  | succ n ih =>
    rw [makedirsFuel]
    by_cases hg : p.dropLast ≠ [] ∧ fs.pathExists p.dropLast = false
    · rw [if_pos hg]
      obtain ⟨nw1, hent1, hprops1⟩ := ih fs p.dropLast
      cases hrec : makedirsFuel n fs p.dropLast with
      | mk fs1 oe =>
        rw [hrec] at hent1
        have hprops1' : ∀ qe ∈ nw1, qe.1 <+: p ∧ qe.2 = Entry.dir ∧ fs.lookup qe.1 = none := by
          intro qe hqe
          obtain ⟨hp1, hp2, hp3⟩ := hprops1 qe hqe
          exact ⟨hp1.trans (dropLast_prefix_self p), hp2, hp3⟩
        cases oe with
        | some e => exact ⟨nw1, hent1, hprops1'⟩
        | none =>
          dsimp only
          rcases mkdir_cases fs1 p with ⟨e, he⟩ | ⟨h1, _, he⟩
          · rw [he]
            exact ⟨nw1, hent1, hprops1'⟩
          · rw [he]
            refine ⟨(p, .dir) :: nw1, by simp only [FS.insert, List.cons_append]; exact congrArg _ hent1, ?_⟩
            intro qe hqe
            rcases List.mem_cons.mp hqe with rfl | hqe
            · refine ⟨⟨[], by simp⟩, rfl, ?_⟩
              rw [FS.lookup, hent1, lookupEntry_append_none] at h1
              exact h1.2
            · exact hprops1' qe hqe
    · rw [if_neg hg]
      rcases mkdir_cases fs p with ⟨e, he⟩ | ⟨h1, _, he⟩
      · exact ⟨[], by simp [he], by simp⟩
      · refine ⟨[(p, .dir)], by simp [he, FS.insert], ?_⟩
        intro qe hqe
        simp only [List.mem_singleton] at hqe
        subst hqe
        exact ⟨⟨[], by simp⟩, rfl, h1⟩

theorem makedirs_entries (fs : FS) (p : FsPath) :
    ∃ nw, (fs.makedirs p).1.entries = nw ++ fs.entries ∧
      ∀ qe ∈ nw, qe.1 <+: p ∧ qe.2 = Entry.dir ∧ fs.lookup qe.1 = none :=
  makedirsFuel_entries p.length fs p

/-- `makedirs` never disturbs an existing entry. -/
theorem makedirs_preserves_some {fs : FS} {p r : FsPath} {v : Entry}
    (h : fs.lookup r = some v) : (fs.makedirs p).1.lookup r = some v := by
  obtain ⟨nw, hent, hprops⟩ := makedirs_entries fs p
  rw [FS.lookup, hent, lookupEntry_append_right]
  · exact h
  · exact lookupEntry_none_of_keys fun qe hqe hk => by
      have := (hprops qe hqe).2.2
      rw [hk, h] at this
      cases this

/-- `makedirs p` only touches prefixes of `p`. -/
theorem makedirs_lookup_of_not_pre {fs : FS} {p r : FsPath}
    (h : ¬ r <+: p) : (fs.makedirs p).1.lookup r = fs.lookup r := by
  obtain ⟨nw, hent, hprops⟩ := makedirs_entries fs p
  rw [FS.lookup, hent, lookupEntry_append_right]
  · rfl
  · apply lookupEntry_none_of_keys
    intro qe hqe hk
    apply h
    rw [← hk]
    exact (hprops qe hqe).1

/-- `makedirs p` adds no child entry to a directory that is not a prefix
of `p`, so child listings of such directories are unchanged. -/
theorem makedirs_childNames_of_not_pre {fs : FS} {p d : FsPath}
    (h : ¬ d <+: p) : childNames (fs.makedirs p).1 d = childNames fs d := by
  obtain ⟨nw, hent, hprops⟩ := makedirs_entries fs p
  rw [childNames, hent, childNamesOf_append]
  have : childNamesOf nw d = [] := by
    apply childNamesOf_nil_of
    intro qe hqe
    cases hdc : directChild d qe.1 with
    | none => rfl
    | some x =>
      exfalso
      have hqd : qe.1 = d ++ [x] := directChild_eq_some.mp hdc
      have hd : d <+: qe.1 := hqd ▸ ⟨[x], rfl⟩
      exact h (hd.trans (hprops qe hqe).1)
  rw [this, List.nil_append]
  rfl

/-- `makedirs` can only grow a directory's child listing. -/
theorem makedirs_childNames_mono {fs : FS} {p d : FsPath} :
    ∃ nw, childNames (fs.makedirs p).1 d = nw ++ childNames fs d := by
  obtain ⟨nw, hent, _⟩ := makedirs_entries fs p
  exact ⟨childNamesOf nw d, by rw [childNames, hent, childNamesOf_append]; rfl⟩

/-- A successful `makedirs p` leaves `p` as a directory. -/
theorem makedirsFuel_success_isDir {n : Nat} {fs : FS} {p : FsPath}
    (h : (makedirsFuel n fs p).2 = none) : (makedirsFuel n fs p).1.isDir p = true := by
  induction n generalizing fs p with
  | zero =>
    have hs := @mkdir_success fs p (by simpa [makedirsFuel] using h)
    show (fs.mkdir p).1.isDir p = true
    rw [hs.2.2, isDir_iff, lookup_insert_self]
  | succ n ih =>
    rw [makedirsFuel] at h ⊢
    by_cases hg : p.dropLast ≠ [] ∧ fs.pathExists p.dropLast = false
    · rw [if_pos hg] at h ⊢
      cases hrec : makedirsFuel n fs p.dropLast with
      | mk fs1 oe =>
        rw [hrec] at h
        cases oe with
        | some e => simp at h
        | none =>
          dsimp only at h ⊢
          have hs := @mkdir_success fs1 p h
          rw [hs.2.2, isDir_iff, lookup_insert_self]
    · rw [if_neg hg] at h ⊢
      have hs := @mkdir_success fs p h
      rw [hs.2.2, isDir_iff, lookup_insert_self]

/-- When the target does not yet exist (the only way the script calls it),
a failing `makedirs` has not changed the filesystem. -/
theorem makedirsFuel_error_no_mutation {n : Nat} {fs : FS} {p : FsPath} {e : OSError}
    (h0 : fs.pathExists p = false) (h : (makedirsFuel n fs p).2 = some e) :
    (makedirsFuel n fs p).1 = fs := by
  induction n generalizing fs p e with
  | zero => exact mkdir_error_no_mutation (by simpa [makedirsFuel] using h)
  | succ n ih =>
    rw [makedirsFuel] at h ⊢
    by_cases hg : p.dropLast ≠ [] ∧ fs.pathExists p.dropLast = false
    · rw [if_pos hg] at h ⊢
      cases hrec : makedirsFuel n fs p.dropLast with
      | mk fs1 oe =>
        rw [hrec] at h
        cases oe with
        | some e' =>
          have hret := ih hg.2 (by rw [hrec])
          rw [hrec] at hret
          exact hret
        | none =>
          exfalso
          dsimp only at h
          have hdirp : fs1.isDir p.dropLast = true := by
            have hx := @makedirsFuel_success_isDir n fs p.dropLast
              (by rw [hrec])
            rw [hrec] at hx
            exact hx
          have hnp : fs1.lookup p = none := by
            obtain ⟨nw, hent, hprops⟩ := makedirsFuel_entries n fs p.dropLast
            rw [hrec] at hent
            rw [FS.lookup, hent, lookupEntry_append_right]
            · exact (pathExists_false_iff fs p).mp h0
            · apply lookupEntry_none_of_keys
              intro qe hqe hk
              have hpre := (hprops qe hqe).1
              rw [hk] at hpre
              have hlen := hpre.length_le
              have hpn : p ≠ [] := by
                intro hp
                exact hg.1 (by rw [hp]; rfl)
              have hpos : 0 < p.length := List.length_pos.mpr hpn
              rw [List.length_dropLast] at hlen
              omega
          unfold FS.mkdir at h
          rw [if_neg (show ¬ fs1.pathExists p = true by simp [FS.pathExists, hnp])] at h
          rw [if_pos (Or.inr hdirp)] at h
          simp at h
    · rw [if_neg hg] at h ⊢
      exact mkdir_error_no_mutation h

theorem makedirs_success_isDir {fs : FS} {p : FsPath}
    (h : (fs.makedirs p).2 = none) : (fs.makedirs p).1.isDir p = true := by
  unfold FS.makedirs at h ⊢
  exact makedirsFuel_success_isDir h

theorem makedirs_error_no_mutation {fs : FS} {p : FsPath} {e : OSError}
    (h0 : fs.pathExists p = false) (h : (fs.makedirs p).2 = some e) :
    (fs.makedirs p).1 = fs := by
  unfold FS.makedirs at h ⊢
  exact makedirsFuel_error_no_mutation h0 h

/-! ### The Placeholder Reconciler: case analysis and invariant -/

/-- Complete case analysis of one `handle_gitkeep` call. -/
theorem handle_gitkeep_spec (fs : FS) (d : FsPath) :
    (∃ e, handle_gitkeep fs d = (fs, some e)) ∨
    (fs.isDir d = true ∧ childrenExcept fs d = [] ∧
      fs.pathExists (d ++ [gitkeepName]) = true ∧ handle_gitkeep fs d = (fs, none)) ∨
    (fs.isDir d = true ∧ childrenExcept fs d = [] ∧
      fs.lookup (d ++ [gitkeepName]) = none ∧
      handle_gitkeep fs d = (fs.insert (d ++ [gitkeepName]) (.file ""), none)) ∨
    (fs.isDir d = true ∧ childrenExcept fs d ≠ [] ∧
      fs.pathExists (d ++ [gitkeepName]) = false ∧ handle_gitkeep fs d = (fs, none)) ∨
    (fs.isDir d = true ∧ childrenExcept fs d ≠ [] ∧
      (∃ c, fs.lookup (d ++ [gitkeepName]) = some (.file c)) ∧
      handle_gitkeep fs d = (fs.erase (d ++ [gitkeepName]), none)) := by
  unfold handle_gitkeep FS.listdir
  cases hld : fs.lookup d with
  | none => exact Or.inl ⟨.fileNotFound, rfl⟩
  | some e0 =>
    cases e0 with
    | file c => exact Or.inl ⟨.notADirectory, rfl⟩
    | dir =>
      have hdir : fs.isDir d = true := (isDir_iff fs d).mpr hld
      dsimp only
      by_cases hemp : filterNotGitkeep (childNames fs d) = []
      · rw [if_pos hemp]
        by_cases hex : fs.pathExists (d ++ [gitkeepName]) = true
        · rw [if_pos hex]
          exact Or.inr (Or.inl ⟨hdir, hemp, hex, rfl⟩)
        · rw [if_neg hex]
          have hnone : fs.lookup (d ++ [gitkeepName]) = none :=
            (pathExists_false_iff fs _).mp (by simpa using hex)
          refine Or.inr (Or.inr (Or.inl ⟨hdir, hemp, hnone, ?_⟩))
          unfold FS.writeFile
          rw [dropLast_append_single, if_pos (Or.inr hdir), hnone]
          rw [erase_of_lookup_none hnone]
      · rw [if_neg hemp]
        by_cases hex : fs.pathExists (d ++ [gitkeepName]) = true
        · rw [if_pos hex]
          unfold FS.removeFile
          cases hgk : fs.lookup (d ++ [gitkeepName]) with
          | none =>
            rw [pathExists_true_iff] at hex
            obtain ⟨v, hv⟩ := hex
            rw [hv] at hgk
            cases hgk
          | some e1 =>
            cases e1 with
            | dir => exact Or.inl ⟨.isADirectory, rfl⟩
            | file c =>
              exact Or.inr (Or.inr (Or.inr (Or.inr ⟨hdir, hemp, ⟨c, rfl⟩, rfl⟩)))
        · rw [if_neg hex]
          exact Or.inr (Or.inr (Or.inr (Or.inl ⟨hdir, hemp, by simpa using hex, rfl⟩)))

theorem handle_gitkeep_error_no_mutation {fs : FS} {d : FsPath} {e : OSError}
    (h : (handle_gitkeep fs d).2 = some e) : (handle_gitkeep fs d).1 = fs := by
  rcases handle_gitkeep_spec fs d with ⟨e', he⟩ | ⟨_, _, _, he⟩ | ⟨_, _, _, he⟩ |
    ⟨_, _, _, he⟩ | ⟨_, _, _, he⟩ <;> rw [he] at h ⊢
  all_goals first
    | rfl
    | exact absurd h (by simp)

/-- A successful reconciler call establishes the marker invariant. -/
theorem handle_gitkeep_establishes {fs : FS} {d : FsPath}
    (h : (handle_gitkeep fs d).2 = none) :
    gitkeepInvariant (handle_gitkeep fs d).1 d := by
  have hgklast : (d ++ [gitkeepName]).getLast? = some gitkeepName :=
    getLast?_append_single d gitkeepName
  rcases handle_gitkeep_spec fs d with ⟨e', he⟩ | ⟨h1, h2, h3, he⟩ | ⟨h1, h2, h3, he⟩ |
    ⟨h1, h2, h3, he⟩ | ⟨h1, h2, ⟨c, h3⟩, he⟩
  · rw [he] at h
    cases h
  · rw [he]
    exact ⟨h1, fun _ => h2, fun _ => h3⟩
  · rw [he]
    refine ⟨?_, fun _ => ?_, fun _ => ?_⟩
    · rw [isDir_iff]
      rw [lookup_insert_ne _ _ _ _ (append_single_ne_self d gitkeepName)]
      exact (isDir_iff fs d).mp h1
    · rw [childrenExcept_insert_gk_end fs d _ hgklast]
      exact h2
    · rw [FS.pathExists, lookup_insert_self]
      rfl
  · rw [he]
    refine ⟨h1, fun hx => ?_, fun hc => ?_⟩
    · rw [hx] at h3
      cases h3
    · exact absurd hc h2
  · rw [he]
    refine ⟨?_, fun hx => ?_, fun hc => ?_⟩
    · rw [isDir_iff, lookup_erase, if_neg (append_single_ne_self d gitkeepName)]
      exact (isDir_iff fs d).mp h1
    · exfalso
      rw [FS.pathExists, lookup_erase, if_pos rfl] at hx
      cases hx
    · exfalso
      rw [childrenExcept_erase_gk_end fs d hgklast] at hc
      exact h2 hc

/-- On a directory already satisfying the invariant, the reconciler is a
no-op. -/
theorem handle_gitkeep_replay {fs : FS} {d : FsPath}
    (hinv : gitkeepInvariant fs d) : handle_gitkeep fs d = (fs, none) := by
  obtain ⟨hdir, hiff⟩ := hinv
  rw [isDir_iff] at hdir
  unfold handle_gitkeep FS.listdir
  rw [hdir]
  dsimp only
  by_cases hemp : filterNotGitkeep (childNames fs d) = []
  · rw [if_pos hemp, if_pos (hiff.mpr hemp)]
  · rw [if_neg hemp, if_neg (fun hx => hemp (hiff.mp hx))]

/-! ### The Directory Synchronizer: establishment, replay, stability -/

/-- The three shapes of a `create_directory` call. -/
theorem create_directory_cases (fs : FS) (p : FsPath) :
    (fs.pathExists p = true ∧ create_directory fs p = handle_gitkeep fs p) ∨
    (fs.pathExists p = false ∧ (fs.makedirs p).2 = none ∧
      create_directory fs p = handle_gitkeep (fs.makedirs p).1 p) ∨
    (fs.pathExists p = false ∧ (∃ e, (fs.makedirs p).2 = some e) ∧
      create_directory fs p = ((fs.makedirs p).1, (fs.makedirs p).2)) := by
  by_cases hex : fs.pathExists p = false
  · unfold create_directory
    rw [if_pos hex]
    cases hmk : fs.makedirs p with
    | mk fsm oe =>
      cases oe with
      | some e => exact Or.inr (Or.inr ⟨hex, ⟨e, rfl⟩, rfl⟩)
      | none => exact Or.inr (Or.inl ⟨hex, rfl, rfl⟩)
  · refine Or.inl ⟨by simpa using hex, ?_⟩
    unfold create_directory
    rw [if_neg hex]

/-- A successful `create_directory` call establishes the marker invariant on
its target. -/
theorem create_directory_establishes {fs : FS} {p : FsPath}
    (h : (create_directory fs p).2 = none) :
    gitkeepInvariant (create_directory fs p).1 p := by
  rcases create_directory_cases fs p with ⟨_, hcd⟩ | ⟨_, _, hcd⟩ | ⟨_, ⟨e, hmk⟩, hcd⟩
  · rw [hcd] at h ⊢
    exact handle_gitkeep_establishes h
  · rw [hcd] at h ⊢
    exact handle_gitkeep_establishes h
  · rw [hcd] at h
    dsimp only at h
    rw [hmk] at h
    cases h

/-- On a target already satisfying the invariant, `create_directory` is a
no-op. -/
theorem create_directory_replay {fs : FS} {p : FsPath}
    (hinv : gitkeepInvariant fs p) : create_directory fs p = (fs, none) := by
  have hex : fs.pathExists p = true := by
    rw [pathExists_true_iff]
    exact ⟨.dir, (isDir_iff fs p).mp hinv.1⟩
  unfold create_directory
  rw [if_neg (by simp [hex])]
  exact handle_gitkeep_replay hinv

/-- Replaying a failing `create_directory` call from the state it left behind
fails identically without further changes. -/
theorem create_directory_error_stable {fs fs1 : FS} {p : FsPath} {e : OSError}
    (h : create_directory fs p = (fs1, some e)) :
    create_directory fs1 p = (fs1, some e) := by
  rcases create_directory_cases fs p with ⟨hex, hcd⟩ | ⟨hex, hmk, hcd⟩ | ⟨hex, ⟨e', hmk⟩, hcd⟩
  · rw [hcd] at h
    have hno := @handle_gitkeep_error_no_mutation fs p e (by rw [h])
    rw [h] at hno
    dsimp only at hno
    subst hno
    rcases create_directory_cases fs1 p with ⟨_, hcd2⟩ | ⟨hex2, _, _⟩ | ⟨hex2, _, _⟩
    · rw [hcd2]
      exact h
    · rw [hex] at hex2
      cases hex2
    · rw [hex] at hex2
      cases hex2
  · rw [hcd] at h
    have hno := @handle_gitkeep_error_no_mutation (fs.makedirs p).1 p e (by rw [h])
    rw [h] at hno
    dsimp only at hno
    subst hno
    have hdirp : (fs.makedirs p).1.isDir p = true := makedirs_success_isDir hmk
    have hex1 : (fs.makedirs p).1.pathExists p = true := by
      rw [pathExists_true_iff]
      exact ⟨.dir, (isDir_iff _ _).mp hdirp⟩
    rcases create_directory_cases (fs.makedirs p).1 p with ⟨_, hcd2⟩ | ⟨hex2, _, _⟩ |
      ⟨hex2, _, _⟩
    · rw [hcd2]
      exact h
    · rw [hex1] at hex2
      cases hex2
    · rw [hex1] at hex2
      cases hex2
  · rw [hcd] at h
    have hfst := congrArg Prod.fst h
    have hsnd := congrArg Prod.snd h
    dsimp only at hfst hsnd
    have hno := makedirs_error_no_mutation hex hmk
    have h1 : fs1 = fs := by
      rw [← hfst, hno]
    subst h1
    rcases create_directory_cases fs1 p with ⟨hex2, _⟩ | ⟨_, hmk2, _⟩ | ⟨_, _, hcd2⟩
    · rw [hex] at hex2
      cases hex2
    · rw [hmk] at hmk2
      cases hmk2
    · rw [hcd2, hno, hsnd]

/-! ### Per-step frame lemmas -/

theorem pathExists_insert_ne (fs : FS) (q p : FsPath) (e : Entry) (h : q ≠ p) :
    (fs.insert q e).pathExists p = fs.pathExists p := by
  unfold FS.pathExists
  rw [lookup_insert_ne _ _ _ _ h]

theorem pathExists_erase_ne (fs : FS) (q p : FsPath) (h : q ≠ p) :
    (fs.erase q).pathExists p = fs.pathExists p := by
  unfold FS.pathExists
  rw [lookup_erase, if_neg h]

/-- The three possible result states of a reconciler call. -/
theorem handle_gitkeep_states (fs : FS) (q : FsPath) :
    (handle_gitkeep fs q).1 = fs ∨
    (childrenExcept fs q = [] ∧ fs.lookup (q ++ [gitkeepName]) = none ∧
      (handle_gitkeep fs q).1 = fs.insert (q ++ [gitkeepName]) (.file "")) ∨
    (childrenExcept fs q ≠ [] ∧ (∃ c, fs.lookup (q ++ [gitkeepName]) = some (.file c)) ∧
      (handle_gitkeep fs q).1 = fs.erase (q ++ [gitkeepName])) := by
  rcases handle_gitkeep_spec fs q with ⟨e, he⟩ | ⟨_, _, _, he⟩ | ⟨_, h2, h3, he⟩ |
    ⟨_, _, _, he⟩ | ⟨_, h2, h3, he⟩ <;> rw [he]
  · exact Or.inl rfl
  · exact Or.inl rfl
  · exact Or.inr (Or.inl ⟨h2, h3, rfl⟩)
  · exact Or.inl rfl
  · exact Or.inr (Or.inr ⟨h2, h3, rfl⟩)

/-- A reconciler call on `q` preserves the marker invariant of any other
directory whose path does not use the reserved name. -/
theorem gitkeepInvariant_preserved_handle {fs : FS} {d q : FsPath}
    (hinv : gitkeepInvariant fs d) (hne : d ≠ q) (hgd : gitkeepName ∉ d) :
    gitkeepInvariant (handle_gitkeep fs q).1 d := by
  have hgklast : (q ++ [gitkeepName]).getLast? = some gitkeepName :=
    getLast?_append_single q gitkeepName
  have hne1 : q ++ [gitkeepName] ≠ d := by
    intro hq
    apply hgd
    rw [← hq]
    exact List.mem_append_right _ (List.mem_singleton_self _)
  have hne2 : q ++ [gitkeepName] ≠ d ++ [gitkeepName] := by
    intro hq
    exact hne ((append_single_inj hq).1.symm)
  rcases handle_gitkeep_states fs q with hst | ⟨_, _, hst⟩ | ⟨_, _, hst⟩ <;> rw [hst]
  · exact hinv
  · refine ⟨?_, ?_⟩
    · rw [isDir_iff, lookup_insert_ne _ _ _ _ hne1]
      exact (isDir_iff fs d).mp hinv.1
    · rw [pathExists_insert_ne _ _ _ _ hne2, childrenExcept_insert_gk_end fs d _ hgklast]
      exact hinv.2
  · refine ⟨?_, ?_⟩
    · rw [isDir_iff, lookup_erase, if_neg hne1]
      exact (isDir_iff fs d).mp hinv.1
    · rw [pathExists_erase_ne _ _ _ hne2, childrenExcept_erase_gk_end fs d hgklast]
      exact hinv.2

/-- A reconciler call never disturbs an entry whose name is not the
reserved marker name. -/
theorem lookup_preserved_handle {fs : FS} {q r : FsPath} {v : Entry}
    (h : fs.lookup r = some v) (hr : r.getLast? ≠ some gitkeepName) :
    (handle_gitkeep fs q).1.lookup r = some v := by
  have hne : q ++ [gitkeepName] ≠ r := by
    intro hq
    apply hr
    rw [← hq]
    exact getLast?_append_single q gitkeepName
  rcases handle_gitkeep_states fs q with hst | ⟨_, _, hst⟩ | ⟨_, _, hst⟩ <;> rw [hst]
  · exact h
  · rw [lookup_insert_ne _ _ _ _ hne]
    exact h
  · rw [lookup_erase, if_neg hne]
    exact h

/-- A reconciler call never changes any non-marker child listing. -/
theorem childrenExcept_handle_eq (fs : FS) (q d : FsPath) :
    childrenExcept (handle_gitkeep fs q).1 d = childrenExcept fs d := by
  have hgklast : (q ++ [gitkeepName]).getLast? = some gitkeepName :=
    getLast?_append_single q gitkeepName
  rcases handle_gitkeep_states fs q with hst | ⟨_, _, hst⟩ | ⟨_, _, hst⟩ <;> rw [hst]
  · exact childrenExcept_insert_gk_end fs d _ hgklast
  · exact childrenExcept_erase_gk_end fs d hgklast

theorem childrenExcept_makedirs_mono {fs : FS} {q d : FsPath}
    (h : childrenExcept fs d ≠ []) : childrenExcept (fs.makedirs q).1 d ≠ [] := by
  obtain ⟨nw, hnw⟩ := @makedirs_childNames_mono fs q d
  unfold childrenExcept at h ⊢
  rw [hnw, filterNotGitkeep_append]
  intro hx
  exact h (List.append_eq_nil.mp hx).2

/-- One synchronizer step can only grow a non-marker child listing. -/
theorem childrenExcept_step_mono {fs : FS} {q d : FsPath}
    (h : childrenExcept fs d ≠ []) : childrenExcept (create_directory fs q).1 d ≠ [] := by
  rcases create_directory_cases fs q with ⟨_, hcd⟩ | ⟨_, _, hcd⟩ | ⟨_, _, hcd⟩ <;> rw [hcd]
  · rw [childrenExcept_handle_eq]
    exact h
  · rw [childrenExcept_handle_eq]
    exact childrenExcept_makedirs_mono h
  · exact childrenExcept_makedirs_mono h

/-- One synchronizer step preserves the marker invariant of any directory
that is not a prefix of its target (reserved name absent from both paths). -/
theorem gitkeepInvariant_preserved_step {fs : FS} {d q : FsPath}
    (hinv : gitkeepInvariant fs d) (hnp : ¬ d <+: q)
    (hgd : gitkeepName ∉ d) (hgq : gitkeepName ∉ q) :
    gitkeepInvariant (create_directory fs q).1 d := by
  have hne : d ≠ q := by
    intro hdq
    exact hnp (by rw [hdq])
  have hmkinv : ∀ fsx : FS, gitkeepInvariant fsx d → gitkeepInvariant (fsx.makedirs q).1 d := by
    intro fsx hinvx
    refine ⟨?_, ?_⟩
    · rw [isDir_iff]
      exact makedirs_preserves_some ((isDir_iff fsx d).mp hinvx.1)
    · have hpe : (fsx.makedirs q).1.pathExists (d ++ [gitkeepName]) =
          fsx.pathExists (d ++ [gitkeepName]) := by
        unfold FS.pathExists
        rw [makedirs_lookup_of_not_pre]
        intro hpre
        exact hgq (hpre.subset (List.mem_append_right _ (List.mem_singleton_self _)))
      have hce : childrenExcept (fsx.makedirs q).1 d = childrenExcept fsx d := by
        unfold childrenExcept
        rw [makedirs_childNames_of_not_pre hnp]
      rw [hpe, hce]
      exact hinvx.2
  rcases create_directory_cases fs q with ⟨_, hcd⟩ | ⟨_, _, hcd⟩ | ⟨_, _, hcd⟩ <;> rw [hcd]
  · exact gitkeepInvariant_preserved_handle hinv hne hgd
  · exact gitkeepInvariant_preserved_handle (hmkinv fs hinv) hne hgd
  · exact hmkinv fs hinv

/-- One synchronizer step never disturbs an entry whose name is not the
reserved marker name. -/
theorem lookup_preserved_step {fs : FS} {q r : FsPath} {v : Entry}
    (h : fs.lookup r = some v) (hr : r.getLast? ≠ some gitkeepName) :
    (create_directory fs q).1.lookup r = some v := by
  rcases create_directory_cases fs q with ⟨_, hcd⟩ | ⟨_, _, hcd⟩ | ⟨_, _, hcd⟩ <;> rw [hcd]
  · exact lookup_preserved_handle h hr
  · exact lookup_preserved_handle (makedirs_preserves_some h) hr
  · exact makedirs_preserves_some h

/-- Once a marker has been removed because its directory had other entries,
no later synchronizer step recreates it. -/
theorem gk_absent_step {fs : FS} {q g : FsPath}
    (hnone : fs.lookup (g ++ [gitkeepName]) = none)
    (hne : childrenExcept fs g ≠ [])
    (hgq : gitkeepName ∉ q) :
    (create_directory fs q).1.lookup (g ++ [gitkeepName]) = none ∧
      childrenExcept (create_directory fs q).1 g ≠ [] := by
  refine ⟨?_, childrenExcept_step_mono hne⟩
  have hmknone : ∀ fsx : FS, fsx.lookup (g ++ [gitkeepName]) = none →
      (fsx.makedirs q).1.lookup (g ++ [gitkeepName]) = none := by
    intro fsx hx
    rw [makedirs_lookup_of_not_pre]
    · exact hx
    · intro hpre
      exact hgq (hpre.subset (List.mem_append_right _ (List.mem_singleton_self _)))
  have hhandle : ∀ fsx : FS, fsx.lookup (g ++ [gitkeepName]) = none →
      childrenExcept fsx g ≠ [] →
      (handle_gitkeep fsx q).1.lookup (g ++ [gitkeepName]) = none := by
    intro fsx hx hnex
    rcases handle_gitkeep_states fsx q with hst | ⟨hempq, _, hst⟩ | ⟨_, _, hst⟩ <;> rw [hst]
    · exact hx
    · by_cases hqg : q = g
      · subst hqg
        exact absurd hempq hnex
      · rw [lookup_insert_ne]
        · exact hx
        · intro hq
          exact hqg (append_single_inj hq).1
    · rw [lookup_erase]
      split
      · rfl
      · exact hx
  rcases create_directory_cases fs q with ⟨_, hcd⟩ | ⟨_, _, hcd⟩ | ⟨_, _, hcd⟩ <;> rw [hcd]
  · exact hhandle fs hnone hne
  · exact hhandle _ (hmknone fs hnone) (childrenExcept_makedirs_mono hne)
  · exact hmknone fs hnone

theorem pair_eta_snd {α β : Type} {x : α × β} {e : β} (h : x.2 = e) : x = (x.1, e) := by
  cases x
  cases h
  rfl

/-! ### Sequencing the synchronizer over a target list -/

theorem execSync_cons (fs : FS) (u : FsPath) (rest : List FsPath) :
    execSync fs (u :: rest) =
      if (create_directory fs u).2 = none then execSync (create_directory fs u).1 rest
      else ((create_directory fs u).1, (create_directory fs u).2) := by
  rw [execSync]
  cases hcd : create_directory fs u with
  | mk fs1 oe =>
    cases oe with
    | some e => rw [if_neg (by simp)]
    | none => rw [if_pos rfl]

theorem gitkeepInvariant_preserved_seq {fs : FS} {d : FsPath} {us : List FsPath}
    (hinv : gitkeepInvariant fs d) (hgd : gitkeepName ∉ d)
    (hcond : ∀ u ∈ us, ¬ d <+: u ∧ gitkeepName ∉ u) :
    gitkeepInvariant (execSync fs us).1 d := by
  induction us generalizing fs with
  | nil => exact hinv
  | cons u rest ih =>
    rw [execSync_cons]
    have hstep := gitkeepInvariant_preserved_step hinv
      (hcond u (List.mem_cons_self u rest)).1 hgd (hcond u (List.mem_cons_self u rest)).2
    by_cases hoe : (create_directory fs u).2 = none
    · rw [if_pos hoe]
      exact ih hstep fun x hx => hcond x (List.mem_cons_of_mem _ hx)
    · rw [if_neg hoe]
      exact hstep

theorem lookup_preserved_seq {fs : FS} {r : FsPath} {v : Entry} {us : List FsPath}
    (h : fs.lookup r = some v) (hr : r.getLast? ≠ some gitkeepName) :
    (execSync fs us).1.lookup r = some v := by
  induction us generalizing fs with
  | nil => exact h
  | cons u rest ih =>
    rw [execSync_cons]
    by_cases hoe : (create_directory fs u).2 = none
    · rw [if_pos hoe]
      exact ih (lookup_preserved_step h hr)
    · rw [if_neg hoe]
      exact lookup_preserved_step h hr

/-- After a fully successful pass, every processed directory satisfies the
marker invariant in the final state. -/
theorem execSync_establishes {fs : FS} {ts : List FsPath}
    (hpair : List.Pairwise (fun a b => ¬ a <+: b) ts)
    (hgk : ∀ t ∈ ts, gitkeepName ∉ t)
    (hsucc : (execSync fs ts).2 = none) :
    ∀ t ∈ ts, gitkeepInvariant (execSync fs ts).1 t := by
  induction ts generalizing fs with
  | nil =>
    intro t ht
    cases ht
  | cons u rest ih =>
    obtain ⟨hhead, htail⟩ := List.pairwise_cons.mp hpair
    rw [execSync_cons] at hsucc ⊢
    by_cases hoe : (create_directory fs u).2 = none
    · rw [if_pos hoe] at hsucc ⊢
      intro t ht
      rcases List.mem_cons.mp ht with rfl | ht
      · exact gitkeepInvariant_preserved_seq (create_directory_establishes hoe)
          (hgk t (List.mem_cons_self t rest))
          fun x hx => ⟨hhead x hx, hgk x (List.mem_cons_of_mem _ hx)⟩
      · exact ih htail (fun x hx => hgk x (List.mem_cons_of_mem _ hx)) hsucc t ht
    · rw [if_neg hoe] at hsucc
      exact absurd hsucc hoe

/-- A pass over targets that all already satisfy the invariant is a no-op. -/
theorem execSync_replay_of_inv {fs : FS} {ts : List FsPath}
    (hall : ∀ t ∈ ts, gitkeepInvariant fs t) :
    execSync fs ts = (fs, none) := by
  induction ts with
  | nil => rfl
  | cons u rest ih =>
    rw [execSync_cons, create_directory_replay (hall u (List.mem_cons_self u rest)),
      if_pos rfl]
    exact ih fun t ht => hall t (List.mem_cons_of_mem _ ht)

/-- Replaying a whole pass from its own final state reproduces that final
state and outcome exactly. -/
theorem execSync_replay {fs : FS} {ts : List FsPath}
    (hpair : List.Pairwise (fun a b => ¬ a <+: b) ts)
    (hgk : ∀ t ∈ ts, gitkeepName ∉ t) :
    execSync (execSync fs ts).1 ts = execSync fs ts := by
  induction ts generalizing fs with
  | nil => rfl
  | cons u rest ih =>
    obtain ⟨hhead, htail⟩ := List.pairwise_cons.mp hpair
    by_cases hoe : (create_directory fs u).2 = none
    · have hc1 : execSync fs (u :: rest) = execSync (create_directory fs u).1 rest := by
        rw [execSync_cons, if_pos hoe]
      rw [hc1]
      have hinvu : gitkeepInvariant (execSync (create_directory fs u).1 rest).1 u :=
        gitkeepInvariant_preserved_seq (create_directory_establishes hoe)
          (hgk u (List.mem_cons_self u rest))
          fun x hx => ⟨hhead x hx, hgk x (List.mem_cons_of_mem _ hx)⟩
      rw [execSync_cons, create_directory_replay hinvu, if_pos rfl]
      exact ih htail fun x hx => hgk x (List.mem_cons_of_mem _ hx)
    · obtain ⟨e, he⟩ : ∃ e, (create_directory fs u).2 = some e := by
        cases h2 : (create_directory fs u).2 with
        | none => exact absurd h2 hoe
        | some e => exact ⟨e, rfl⟩
      have hc1 : execSync fs (u :: rest) = ((create_directory fs u).1, some e) := by
        rw [execSync_cons, if_neg hoe, he]
      rw [hc1]
      have hstable := create_directory_error_stable (pair_eta_snd he)
      rw [execSync_cons, hstable, if_neg (by simp)]

/-! ### The application.properties step -/

theorem writeFile_states (fs : FS) (p : FsPath) (c : String) :
    (∃ e, fs.writeFile p c = (fs, some e)) ∨
    fs.writeFile p c = ((fs.erase p).insert p (.file c), none) := by
  unfold FS.writeFile
  by_cases h1 : p.dropLast = [] ∨ fs.isDir p.dropLast
  · rw [if_pos h1]
    cases hl : fs.lookup p with
    | none => exact Or.inr rfl
    | some e0 =>
      cases e0 with
      | dir => exact Or.inl ⟨.isADirectory, rfl⟩
      | file c0 => exact Or.inr rfl
  · rw [if_neg h1]
    by_cases h2 : fs.pathExists p.dropLast
    · rw [if_pos h2]
      exact Or.inl ⟨.notADirectory, rfl⟩
    · rw [if_neg h2]
      exact Or.inl ⟨.fileNotFound, rfl⟩

theorem appPropertiesStep_cases (fs : FS) :
    (fs.pathExists application_properties = true ∧ appPropertiesStep fs = (fs, none)) ∨
    (fs.pathExists application_properties = false ∧
      appPropertiesStep fs = fs.writeFile application_properties defaultPropertiesContent) := by
  unfold appPropertiesStep
  by_cases hex : fs.pathExists application_properties
  · rw [if_pos hex]
    exact Or.inl ⟨hex, rfl⟩
  · rw [if_neg hex]
    exact Or.inr ⟨by simpa using hex, rfl⟩

/-- The configuration-file step either leaves the state untouched or adds the
file at a previously absent path. -/
theorem appPropertiesStep_result (fs : FS) :
    (appPropertiesStep fs).1 = fs ∨
    (fs.lookup application_properties = none ∧
      (appPropertiesStep fs).1 = fs.insert application_properties (.file defaultPropertiesContent)) := by
  rcases appPropertiesStep_cases fs with ⟨hex, hst⟩ | ⟨hex, hst⟩
  · rw [hst]
    exact Or.inl rfl
  · have hnone := (pathExists_false_iff fs application_properties).mp hex
    rcases writeFile_states fs application_properties defaultPropertiesContent with ⟨e, hw⟩ | hw
    · rw [hst, hw]
      exact Or.inl rfl
    · rw [hst, hw, erase_of_lookup_none hnone]
      exact Or.inr ⟨hnone, rfl⟩

theorem application_properties_ne_gk_child (g : FsPath) :
    application_properties ≠ g ++ [gitkeepName] := by
  intro h
  have h1 := congrArg List.getLast? h
  rw [getLast?_append_single] at h1
  have h2 : application_properties.getLast? = some "application.properties" := by rfl
  rw [h2] at h1
  simp [gitkeepName] at h1

theorem lookup_preserved_app {fs : FS} {r : FsPath} {v : Entry}
    (h : fs.lookup r = some v) : (appPropertiesStep fs).1.lookup r = some v := by
  rcases appPropertiesStep_result fs with hst | ⟨hnone, hst⟩ <;> rw [hst]
  · exact h
  · rw [lookup_insert_ne]
    · exact h
    · intro hq
      rw [hq, h] at hnone
      cases hnone

theorem gitkeepInvariant_preserved_app {fs : FS} {d : FsPath}
    (hinv : gitkeepInvariant fs d) (hd : d ≠ resources_dir) :
    gitkeepInvariant (appPropertiesStep fs).1 d := by
  rcases appPropertiesStep_result fs with hst | ⟨hnone, hst⟩ <;> rw [hst]
  · exact hinv
  · have hne1 : application_properties ≠ d := by
      intro hq
      rw [hq] at hnone
      rw [(isDir_iff fs d).mp hinv.1] at hnone
      cases hnone
    refine ⟨?_, ?_⟩
    · rw [isDir_iff, lookup_insert_ne _ _ _ _ hne1]
      exact (isDir_iff fs d).mp hinv.1
    · rw [pathExists_insert_ne _ _ _ _ (application_properties_ne_gk_child d)]
      have hchild : directChild d application_properties = none := by
        unfold directChild
        rw [if_neg]
        intro hq
        apply hd
        rw [← hq]
        rfl
      unfold childrenExcept
      rw [childNames_insert_not_child _ _ _ hchild]
      exact hinv.2

theorem gk_absent_app {fs : FS} {g : FsPath}
    (h : fs.lookup (g ++ [gitkeepName]) = none) :
    (appPropertiesStep fs).1.lookup (g ++ [gitkeepName]) = none := by
  rcases appPropertiesStep_result fs with hst | ⟨hnone, hst⟩ <;> rw [hst]
  · exact h
  · rw [lookup_insert_ne _ _ _ _ (application_properties_ne_gk_child g)]
    exact h

/-! ### Structure of the driver's target list -/

theorem splitOnDotAux_ne_nil (cs acc : List Char) : splitOnDotAux cs acc ≠ [] := by
  induction cs generalizing acc with
  | nil => simp [splitOnDotAux]
  | cons c rest ih =>
    simp only [splitOnDotAux]
    by_cases h : c = '.'
    · simp [h]
    · rw [if_neg h]
      exact ih _

theorem packagePath_ne_nil (s : String) : packagePath s ≠ [] :=
  splitOnDotAux_ne_nil _ _

theorem splitOnDotAux_no_dot (cs : List Char) :
    ∀ acc : List Char, '.' ∉ acc → ∀ seg ∈ splitOnDotAux cs acc, '.' ∉ seg.data := by
  induction cs with
  | nil =>
    intro acc hacc seg hseg
    simp only [splitOnDotAux, List.mem_singleton] at hseg
    subst hseg
    show '.' ∉ acc.reverse
    simpa using hacc
  | cons c rest ih =>
    intro acc hacc seg hseg
    simp only [splitOnDotAux] at hseg
    by_cases h : c = '.'
    · rw [if_pos h] at hseg
      rcases List.mem_cons.mp hseg with rfl | hseg
      · show '.' ∉ acc.reverse
        simpa using hacc
      · exact ih [] (by simp) seg hseg
    · rw [if_neg h] at hseg
      refine ih (c :: acc) ?_ seg hseg
      intro hc
      rcases List.mem_cons.mp hc with hc | hc
      · exact h hc.symm
      · exact hacc hc

theorem packagePath_no_gk {s : String} : ∀ seg ∈ packagePath s, seg ≠ gitkeepName := by
  intro seg hseg heq
  have hnd := splitOnDotAux_no_dot s.data [] (by simp) seg hseg
  rw [heq] at hnd
  exact hnd (by decide)

theorem targets_mem {B t : FsPath} (ht : t ∈ targets B) :
    (∃ p ∈ packages, t = src_main_java ++ B ++ packagePath p ∨
      t = src_test_java ++ B ++ packagePath p) ∨
    t = resources_dir ++ ["static"] ∨ t = resources_dir ++ ["templates"] := by
  unfold targets at ht
  rcases List.mem_append.mp ht with hj | hr
  · rw [List.mem_flatMap] at hj
    obtain ⟨p, hp, hmem⟩ := hj
    simp only [List.mem_cons, List.mem_singleton, List.not_mem_nil, or_false] at hmem
    exact Or.inl ⟨p, hp, hmem⟩
  · right
    simpa using hr

theorem targets_no_gk {ns : String} : ∀ t ∈ targets (packagePath ns), gitkeepName ∉ t := by
  intro t ht hmem
  have hpp : ∀ x ∈ packages, gitkeepName ∉ packagePath x := by decide
  rcases targets_mem ht with ⟨p, hp, hcase⟩ | hcase | hcase
  · rcases hcase with rfl | rfl <;>
    · rcases List.mem_append.mp hmem with hm | hm
      · rcases List.mem_append.mp hm with hm2 | hm2
        · exact absurd hm2 (by decide)
        · exact packagePath_no_gk _ hm2 rfl
      · exact hpp p hp hm
  · subst hcase
    exact absurd hmem (by decide)
  · subst hcase
    exact absurd hmem (by decide)

theorem targets_eq (B : FsPath) :
    targets B = (javaPairs.map fun rx => rx.1 ++ B ++ rx.2) ++
      [resources_dir ++ ["static"], resources_dir ++ ["templates"]] := rfl

theorem javaPairs_shape : ∀ rx ∈ javaPairs, rx.1.length = 3 ∧ rx.2.length = 1 := by decide

theorem javaPairs_nodup : javaPairs.Nodup := by decide

/-- No target in a run is a prefix of a later one: creating or reconciling a
later target never reaches inside an earlier one. -/
theorem targets_pairwise {B : FsPath} (hB : B ≠ []) :
    List.Pairwise (fun a b => ¬ a <+: b) (targets B) := by
  have hBlen : 1 ≤ B.length := List.length_pos.mpr hB
  rw [targets_eq, List.pairwise_append]
  refine ⟨?_, ?_, ?_⟩
  · rw [List.pairwise_map]
    refine List.Pairwise.imp_of_mem ?_ javaPairs_nodup
    intro a b ha hb hne hpre
    obtain ⟨ha1, ha2⟩ := javaPairs_shape a ha
    obtain ⟨hb1, hb2⟩ := javaPairs_shape b hb
    have hlen : (a.1 ++ B ++ a.2).length = (b.1 ++ B ++ b.2).length := by
      simp only [List.length_append, ha1, ha2, hb1, hb2]
    have heq := hpre.eq_of_length hlen
    have h1 : a.1 ++ (B ++ a.2) = b.1 ++ (B ++ b.2) := by
      simpa [List.append_assoc] using heq
    have hinj := List.append_inj h1 (by rw [ha1, hb1])
    have hsnd : a.2 = b.2 := List.append_cancel_left hinj.2
    exact hne (Prod.ext hinj.1 hsnd)
  · refine List.pairwise_cons.mpr ⟨?_, ?_⟩
    · intro b hb hpre
      rw [List.mem_singleton] at hb
      subst hb
      have heq := hpre.eq_of_length (by decide)
      exact absurd heq (by decide)
    · simp
  · intro a ha b hb hpre
    rw [List.mem_map] at ha
    obtain ⟨rx, hrx, rfl⟩ := ha
    obtain ⟨h1, h2⟩ := javaPairs_shape rx hrx
    have hlen := hpre.length_le
    have hblen : b.length = 4 := by
      rcases List.mem_cons.mp hb with rfl | hb
      · decide
      · rw [List.mem_singleton] at hb
        subst hb
        decide
    simp only [List.length_append, h1, h2, hblen] at hlen
    omega

theorem appPropertiesStep_error_eq {fs : FS} {e : OSError}
    (h : (appPropertiesStep fs).2 = some e) : appPropertiesStep fs = (fs, some e) := by
  rcases appPropertiesStep_cases fs with ⟨hex, hst⟩ | ⟨hex, hst⟩
  · rw [hst] at h
    cases h
  · rcases writeFile_states fs application_properties defaultPropertiesContent with
      ⟨e', hw⟩ | hw
    · rw [hst, hw] at h ⊢
      cases h
      rfl
    · rw [hst, hw] at h
      cases h

theorem appPropertiesStep_success_exists {fs : FS}
    (h : (appPropertiesStep fs).2 = none) :
    (appPropertiesStep fs).1.pathExists application_properties = true := by
  rcases appPropertiesStep_cases fs with ⟨hex, hst⟩ | ⟨hex, hst⟩
  · rw [hst]
    exact hex
  · rcases writeFile_states fs application_properties defaultPropertiesContent with
      ⟨e', hw⟩ | hw
    · rw [hst, hw] at h
      cases h
    · rw [hst, hw]
      rw [pathExists_true_iff]
      exact ⟨_, lookup_insert_self _ _ _⟩

theorem appPropertiesStep_replay_of_exists {fs : FS}
    (h : fs.pathExists application_properties = true) :
    appPropertiesStep fs = (fs, none) := by
  unfold appPropertiesStep
  rw [if_pos h]

theorem getLast?_append_right (A : FsPath) {B : FsPath} (h : B ≠ []) :
    (A ++ B).getLast? = B.getLast? := by
  induction A with
  | nil => rfl
  | cons a l ih =>
    rw [List.cons_append]
    cases hx : (l ++ B).getLast? with
    | none =>
      exfalso
      rw [List.getLast?_eq_none_iff] at hx
      exact h (List.append_eq_nil.mp hx).2
    | some x =>
      cases hL : l ++ B with
      | nil =>
        rw [hL] at hx
        cases hx
      | cons b t =>
        rw [hL] at ih
        rw [List.getLast?_cons_cons]
        exact ih

theorem mem_of_getLast? {l : FsPath} {a : Name} (h : l.getLast? = some a) : a ∈ l := by
  have := eq_dropLast_append_of_getLast? h
  rw [this]
  exact List.mem_append_right _ (List.mem_singleton_self _)

theorem base_main_last_ne_gk (ns : String) :
    (src_main_java ++ packagePath ns).getLast? ≠ some gitkeepName := by
  rw [getLast?_append_right _ (packagePath_ne_nil ns)]
  intro h
  exact packagePath_no_gk _ (mem_of_getLast? h) rfl

theorem targets_ne_resources {ns : String} :
    ∀ t ∈ targets (packagePath ns), t ≠ resources_dir := by
  intro t ht heq
  rcases targets_mem ht with ⟨p, hp, hcase⟩ | hcase | hcase
  · have hB1 : 1 ≤ (packagePath ns).length :=
      List.length_pos.mpr (packagePath_ne_nil ns)
    have hp1 : 1 ≤ (packagePath p).length :=
      List.length_pos.mpr (packagePath_ne_nil p)
    obtain ⟨r, hr3, rfl⟩ : ∃ r : FsPath, r.length = 3 ∧
        t = r ++ packagePath ns ++ packagePath p := by
      rcases hcase with rfl | rfl
      · exact ⟨src_main_java, rfl, rfl⟩
      · exact ⟨src_test_java, rfl, rfl⟩
    have hlen := congrArg List.length heq
    simp only [List.length_append, hr3] at hlen
    rw [show resources_dir.length = 3 from rfl] at hlen
    omega
  · subst hcase
    exact append_single_ne_self _ _ heq
  · subst hcase
    exact append_single_ne_self _ _ heq

/-! ### The driver core: case analysis and idempotence -/

theorem runCore_cases (B : FsPath) (fs : FS) :
    (fs.pathExists (src_main_java ++ B) = false ∧ runCore B fs = (fs, .exited 1)) ∨
    (fs.pathExists (src_main_java ++ B) = true ∧
      ((∃ e, (execSync fs (targets B)).2 = some e ∧
          runCore B fs = ((execSync fs (targets B)).1, .raised e)) ∨
       ((execSync fs (targets B)).2 = none ∧
        ((∃ e, (appPropertiesStep (execSync fs (targets B)).1).2 = some e ∧
            runCore B fs = ((appPropertiesStep (execSync fs (targets B)).1).1, .raised e)) ∨
         ((appPropertiesStep (execSync fs (targets B)).1).2 = none ∧
           runCore B fs = ((appPropertiesStep (execSync fs (targets B)).1).1, .ok)))))) := by
  by_cases hpre : fs.pathExists (src_main_java ++ B) = false
  · exact Or.inl ⟨hpre, by unfold runCore; rw [if_pos hpre]⟩
  · refine Or.inr ⟨by simpa using hpre, ?_⟩
    unfold runCore
    rw [if_neg hpre]
    cases hrun : execSync fs (targets B) with
    | mk fs1 oe =>
      cases oe with
      | some e => exact Or.inl ⟨e, rfl, rfl⟩
      | none =>
        refine Or.inr ⟨rfl, ?_⟩
        dsimp only
        cases happ : appPropertiesStep fs1 with
        | mk fs2 oe2 =>
          cases oe2 with
          | some e => exact Or.inl ⟨e, rfl, rfl⟩
          | none => exact Or.inr ⟨rfl, rfl⟩

/-- Idempotence of the driver core, for any base path whose targets satisfy
the geometric side conditions (all established for an actual namespace by
the lemmas above). -/
theorem runCore_idempotent {B : FsPath} (fs : FS)
    (hpair : List.Pairwise (fun a b => ¬ a <+: b) (targets B))
    (hgk : ∀ t ∈ targets B, gitkeepName ∉ t)
    (hnr : ∀ t ∈ targets B, t ≠ resources_dir)
    (hlast : (src_main_java ++ B).getLast? ≠ some gitkeepName) :
    runCore B (runCore B fs).1 = runCore B fs := by
  rcases runCore_cases B fs with ⟨hpre, hrc⟩ | ⟨hpre, hrest⟩
  · rw [hrc]
    exact hrc
  · obtain ⟨v, hv⟩ := (pathExists_true_iff _ _).mp hpre
    rcases hrest with ⟨e, hoe, hrc⟩ | ⟨hoe, hrest2⟩
    · -- the pass over the targets failed
      rw [hrc]
      dsimp only
      have hv1 : (execSync fs (targets B)).1.lookup (src_main_java ++ B) = some v :=
        lookup_preserved_seq hv hlast
      have hrep := @execSync_replay fs (targets B) hpair hgk
      rcases runCore_cases B (execSync fs (targets B)).1 with ⟨hpre2, _⟩ | ⟨_, hrest3⟩
      · rw [(pathExists_false_iff _ _).mp hpre2] at hv1
        cases hv1
      · rcases hrest3 with ⟨e2, hoe2, hrc2⟩ | ⟨hoe2, _⟩
        · rw [hrep] at hoe2 hrc2
          rw [hoe] at hoe2
          injection hoe2 with he2
          subst he2
          rw [hrc2]
        · rw [hrep, hoe] at hoe2
          cases hoe2
    · -- the pass over the targets succeeded
      have hall := execSync_establishes hpair hgk hoe
      have hv1 : (execSync fs (targets B)).1.lookup (src_main_java ++ B) = some v :=
        lookup_preserved_seq hv hlast
      rcases hrest2 with ⟨e2, hoe2, hrc⟩ | ⟨hoe2, hrc⟩
      · -- the configuration-file step failed; it did not change the state
        have happ_err := appPropertiesStep_error_eq hoe2
        rw [hrc, happ_err]
        dsimp only
        rcases runCore_cases B (execSync fs (targets B)).1 with ⟨hpre2, _⟩ | ⟨_, hrest3⟩
        · rw [(pathExists_false_iff _ _).mp hpre2] at hv1
          cases hv1
        · have hrep : execSync (execSync fs (targets B)).1 (targets B) =
              ((execSync fs (targets B)).1, none) := execSync_replay_of_inv hall
          rcases hrest3 with ⟨e3, hoe3, _⟩ | ⟨_, hrest4⟩
          · rw [hrep] at hoe3
            cases hoe3
          · rcases hrest4 with ⟨e3, hoe3, hrc3⟩ | ⟨hoe3, _⟩
            · rw [hrep] at hoe3 hrc3
              dsimp only at hoe3 hrc3
              rw [happ_err] at hoe3 hrc3
              injection hoe3 with he3
              subst he3
              rw [hrc3]
            · rw [hrep] at hoe3
              dsimp only at hoe3
              rw [happ_err] at hoe3
              cases hoe3
      · -- full success
        have hfin := appPropertiesStep_success_exists hoe2
        rw [hrc]
        dsimp only
        have hall2 : ∀ t ∈ targets B,
            gitkeepInvariant (appPropertiesStep (execSync fs (targets B)).1).1 t :=
          fun t ht => gitkeepInvariant_preserved_app (hall t ht) (hnr t ht)
        have hv2 : (appPropertiesStep (execSync fs (targets B)).1).1.lookup
            (src_main_java ++ B) = some v := lookup_preserved_app hv1
        rcases runCore_cases B (appPropertiesStep (execSync fs (targets B)).1).1 with
          ⟨hpre2, _⟩ | ⟨_, hrest3⟩
        · rw [(pathExists_false_iff _ _).mp hpre2] at hv2
          cases hv2
        · have hrep := execSync_replay_of_inv hall2
          rcases hrest3 with ⟨e3, hoe3, _⟩ | ⟨_, hrest4⟩
          · rw [hrep] at hoe3
            cases hoe3
          · rcases hrest4 with ⟨e3, hoe3, hrc3⟩ | ⟨hoe3, hrc3⟩
            · rw [hrep] at hoe3
              dsimp only at hoe3
              rw [appPropertiesStep_replay_of_exists hfin] at hoe3
              cases hoe3
            · rw [hrep] at hrc3
              dsimp only at hrc3
              rw [appPropertiesStep_replay_of_exists hfin] at hrc3
              exact hrc3

/-- C2: for every namespace (arbitrary `sys.argv`) and every initial
filesystem state, running the whole synchronization twice in succession
yields, after the second run, exactly the final state (and outcome) of the
first run: the program is idempotent. -/
theorem runProgram_idempotent (argv : List String) (fs : FS) :
    runProgram argv ((runProgram argv fs).1) = runProgram argv fs := by
  by_cases hargc : argv.length ≠ 2
  · have h1 : runProgram argv fs = (fs, .exited 1) := by
      unfold runProgram
      rw [if_pos hargc]
    rw [h1]
    exact h1
  · have h2 : ∀ g : FS, runProgram argv g = runCore (packagePath (argv.getD 1 "")) g := by
      intro g
      unfold runProgram
      rw [if_neg hargc]
    simp only [h2]
    exact runCore_idempotent fs
      (targets_pairwise (packagePath_ne_nil _))
      targets_no_gk targets_ne_resources (base_main_last_ne_gk _)

/-! ### Well-formed filesystems and ancestor directories -/

theorem WF_insert_dir {fs : FS} {p : FsPath} (hwf : fs.WF)
    (hpar : p.dropLast = [] ∨ fs.isDir p.dropLast = true) (hnone : fs.lookup p = none) :
    (fs.insert p .dir).WF := by
  intro pe hpe
  rcases List.mem_cons.mp hpe with rfl | hpe
  · show p.dropLast = [] ∨ (fs.insert p .dir).isDir p.dropLast = true
    by_cases hp : p.dropLast = []
    · exact Or.inl hp
    · rcases hpar with h | h
      · exact absurd h hp
      · right
        rw [isDir_iff, lookup_insert_ne]
        · exact (isDir_iff _ _).mp h
        · intro hq
          have := congrArg List.length hq
          rw [List.length_dropLast] at this
          have hpn : p ≠ [] := by
            intro hpe2
            exact hp (by rw [hpe2]; rfl)
          have := List.length_pos.mpr hpn
          omega
  · rcases hwf pe hpe with h | h
    · exact Or.inl h
    · right
      rw [isDir_iff, lookup_insert_ne]
      · exact (isDir_iff _ _).mp h
      · intro hq
        rw [isDir_iff, ← hq, hnone] at h
        cases h

theorem WF_mkdir {fs : FS} {p : FsPath} (hwf : fs.WF) : (fs.mkdir p).1.WF := by
  rcases mkdir_cases fs p with ⟨e, he⟩ | ⟨h1, h2, he⟩ <;> rw [he]
  · exact hwf
  · exact WF_insert_dir hwf h2 h1

theorem WF_makedirsFuel {n : Nat} {fs : FS} {p : FsPath} (hwf : fs.WF) :
    (makedirsFuel n fs p).1.WF := by
  induction n generalizing fs p with
  | zero => exact WF_mkdir hwf
  | succ n ih =>
    rw [makedirsFuel]
    by_cases hg : p.dropLast ≠ [] ∧ fs.pathExists p.dropLast = false
    · rw [if_pos hg]
      cases hrec : makedirsFuel n fs p.dropLast with
      | mk fs1 oe =>
        have hwf1 : fs1.WF := by
          have hx := @ih fs p.dropLast hwf
          rw [hrec] at hx
          exact hx
        cases oe with
        | some e => exact hwf1
        | none => exact WF_mkdir hwf1
    · rw [if_neg hg]
      exact WF_mkdir hwf

theorem WF_makedirs {fs : FS} {p : FsPath} (hwf : fs.WF) : (fs.makedirs p).1.WF :=
  WF_makedirsFuel hwf

theorem prefix_dropLast_of_lt {q r : FsPath} (h : q <+: r) (hlt : q.length < r.length) :
    q <+: r.dropLast := by
  obtain ⟨t, ht⟩ := h
  cases t with
  | nil =>
    exfalso
    rw [List.append_nil] at ht
    rw [ht] at hlt
    omega
  | cons x xs =>
    refine ⟨(x :: xs).dropLast, ?_⟩
    rw [← ht, List.dropLast_append_of_ne_nil]
    simp

/-- In a well-formed filesystem, every nonempty prefix of an existing path
exists. -/
theorem WF_ancestors_aux {fs : FS} (hwf : fs.WF) :
    ∀ n : Nat, ∀ r : FsPath, r.length ≤ n → fs.pathExists r = true →
      ∀ q, q ≠ [] → q <+: r → fs.pathExists q = true := by
  intro n
  induction n with
  | zero =>
    intro r hr0 hr q hq hpre
    have : r = [] := by
      cases r with
      | nil => rfl
      | cons a l => simp at hr0
    subst this
    exact absurd (List.prefix_nil.mp hpre) hq
  | succ n ih =>
    intro r hrlen hr q hq hpre
    by_cases hqr : q = r
    · rw [hqr]
      exact hr
    · have hlt : q.length < r.length := by
        have hle := hpre.length_le
        rcases Nat.lt_or_ge q.length r.length with h | h
        · exact h
        · exact absurd (hpre.eq_of_length (Nat.le_antisymm hle h)) hqr
      have hq2 : q <+: r.dropLast := prefix_dropLast_of_lt hpre hlt
      obtain ⟨v, hv⟩ := (pathExists_true_iff _ _).mp hr
      rcases hwf (r, v) (lookup_some_mem hv) with hpar | hpar
      · exfalso
        rw [hpar] at hq2
        exact hq (List.prefix_nil.mp hq2)
      · have hdex : fs.pathExists r.dropLast = true := by
          rw [pathExists_true_iff]
          exact ⟨.dir, (isDir_iff _ _).mp hpar⟩
        refine ih r.dropLast ?_ hdex q hq hq2
        rw [List.length_dropLast]
        omega

theorem WF_ancestors {fs : FS} (hwf : fs.WF) {r : FsPath}
    (hr : fs.pathExists r = true) :
    ∀ q, q ≠ [] → q <+: r → fs.pathExists q = true :=
  WF_ancestors_aux hwf r.length r (Nat.le_refl _) hr

/-- A reconciler call only ever touches the marker path of its directory. -/
theorem handle_lookup_ne {fs : FS} {q r : FsPath} (h : r ≠ q ++ [gitkeepName]) :
    (handle_gitkeep fs q).1.lookup r = fs.lookup r := by
  rcases handle_gitkeep_states fs q with hst | ⟨_, _, hst⟩ | ⟨_, _, hst⟩ <;> rw [hst]
  · rw [lookup_insert_ne]
    intro hq
    exact h hq.symm
  · rw [lookup_erase, if_neg fun hq => h hq.symm]

/-! ### Claim theorems -/

/-- C1: after a completed Placeholder Reconciler call on an existing
directory `D`, the marker path exists in `D` exactly when `D` has no
immediate entries other than the reserved marker name. -/
theorem handle_gitkeep_invariant (fs : FS) (D : FsPath)
    (hdir : fs.isDir D = true) (hok : (handle_gitkeep fs D).2 = none) :
    ((handle_gitkeep fs D).1.pathExists (D ++ [gitkeepName]) = true ↔
      childrenExcept (handle_gitkeep fs D).1 D = []) :=
  (handle_gitkeep_establishes hok).2

theorem handle_gitkeep_invariant_witness :
    (FS.mk [(["a"], .dir)]).isDir ["a"] = true ∧
    (handle_gitkeep ⟨[(["a"], .dir)]⟩ ["a"]).2 = none ∧
    ((handle_gitkeep ⟨[(["a"], .dir)]⟩ ["a"]).1.pathExists (["a"] ++ [gitkeepName]) = true ↔
      childrenExcept (handle_gitkeep ⟨[(["a"], .dir)]⟩ ["a"]).1 ["a"] = []) :=
  ⟨by decide, by decide, handle_gitkeep_invariant _ _ (by decide) (by decide)⟩

/-- C4: on a well-formed filesystem, `create_directory` creates a missing
target as a directory together with its missing ancestors, leaves every
entry other than the target's marker untouched when the target already
exists, and in both cases leaves the target satisfying the reconciler's
marker condition when the call completes. -/
theorem create_directory_spec (fs : FS) (p : FsPath) (hwf : fs.WF) :
    (fs.pathExists p = false → (create_directory fs p).2 = none →
      (create_directory fs p).1.isDir p = true ∧
      ∀ q, q ≠ [] → q <+: p → (create_directory fs p).1.pathExists q = true) ∧
    (fs.pathExists p = true →
      ∀ r, r ≠ p ++ [gitkeepName] → (create_directory fs p).1.lookup r = fs.lookup r) ∧
    ((create_directory fs p).2 = none →
      ((create_directory fs p).1.pathExists (p ++ [gitkeepName]) = true ↔
        childrenExcept (create_directory fs p).1 p = [])) := by
  refine ⟨?_, ?_, fun hok => (create_directory_establishes hok).2⟩
  · intro hex hok
    rcases create_directory_cases fs p with ⟨hex2, _⟩ | ⟨_, hmk, hcd⟩ | ⟨_, ⟨e, hmk⟩, hcd⟩
    · rw [hex] at hex2
      cases hex2
    · constructor
      · rw [hcd, isDir_iff, handle_lookup_ne (append_single_ne_self p gitkeepName).symm]
        exact (isDir_iff _ _).mp (makedirs_success_isDir hmk)
      · intro q hq hqpre
        have hwfm : (fs.makedirs p).1.WF := WF_makedirs hwf
        have hpm : (fs.makedirs p).1.pathExists p = true := by
          rw [pathExists_true_iff]
          exact ⟨.dir, (isDir_iff _ _).mp (makedirs_success_isDir hmk)⟩
        have hqex := WF_ancestors hwfm hpm q hq hqpre
        have hqne : q ≠ p ++ [gitkeepName] := by
          intro hqeq
          have h1 := hqpre.length_le
          have h2 := congrArg List.length hqeq
          simp only [List.length_append, List.length_singleton] at h2
          omega
        rw [hcd, pathExists_true_iff] at *
        obtain ⟨v, hv⟩ := hqex
        exact ⟨v, by rw [handle_lookup_ne hqne]; exact hv⟩
    · rw [hcd] at hok
      dsimp only at hok
      rw [hmk] at hok
      cases hok
  · intro hex r hr
    rcases create_directory_cases fs p with ⟨_, hcd⟩ | ⟨hex2, _, _⟩ | ⟨hex2, _, _⟩
    · rw [hcd]
      exact handle_lookup_ne hr
    · rw [hex] at hex2
      cases hex2
    · rw [hex] at hex2
      cases hex2

theorem create_directory_spec_witness :
    (create_directory ⟨[]⟩ ["a", "b"]).1.isDir ["a", "b"] = true ∧
    (create_directory ⟨[]⟩ ["a", "b"]).1.pathExists ["a"] = true ∧
    ((create_directory ⟨[]⟩ ["a", "b"]).1.pathExists (["a", "b"] ++ [gitkeepName]) = true ↔
      childrenExcept (create_directory ⟨[]⟩ ["a", "b"]).1 ["a", "b"] = []) := by
  have h := create_directory_spec ⟨[]⟩ ["a", "b"] (fun pe hpe => absurd hpe (by simp))
  exact ⟨(h.1 (by decide) (by decide)).1,
    (h.1 (by decide) (by decide)).2 ["a"] (by decide) ⟨["b"], rfl⟩,
    h.2.2 (by decide)⟩

/-- C5: on an existing directory `D` with at least one non-marker entry,
and whose marker path is not itself a directory, the reconciler completes,
removes the marker if present, and leaves every other entry unchanged. -/
theorem handle_gitkeep_frame (fs : FS) (D : FsPath)
    (hdir : fs.isDir D = true) (hne : childrenExcept fs D ≠ [])
    (hmk : fs.isDir (D ++ [gitkeepName]) = false) :
    (handle_gitkeep fs D).2 = none ∧
    (handle_gitkeep fs D).1.pathExists (D ++ [gitkeepName]) = false ∧
    ∀ r, r ≠ D ++ [gitkeepName] → (handle_gitkeep fs D).1.lookup r = fs.lookup r := by
  have hcomb : (handle_gitkeep fs D).2 = none ∧
      (handle_gitkeep fs D).1.pathExists (D ++ [gitkeepName]) = false := by
    unfold handle_gitkeep FS.listdir
    rw [isDir_iff] at hdir
    rw [hdir]
    dsimp only
    rw [if_neg (show filterNotGitkeep (childNames fs D) ≠ [] from hne)]
    by_cases hex : fs.pathExists (D ++ [gitkeepName]) = true
    · rw [if_pos hex]
      obtain ⟨v, hv⟩ := (pathExists_true_iff _ _).mp hex
      cases v with
      | dir =>
        have hd2 : fs.isDir (D ++ [gitkeepName]) = true := (isDir_iff _ _).mpr hv
        rw [hd2] at hmk
        cases hmk
      | file c =>
        unfold FS.removeFile
        rw [hv]
        refine ⟨rfl, ?_⟩
        rw [FS.pathExists, lookup_erase, if_pos rfl]
        rfl
    · rw [if_neg hex]
      exact ⟨rfl, by simpa using hex⟩
  exact ⟨hcomb.1, hcomb.2, fun r hr => handle_lookup_ne hr⟩

theorem handle_gitkeep_frame_witness :
    (handle_gitkeep ⟨[(["a"], .dir), (["a", "f"], .file "x"),
        (["a", ".gitkeep"], .file "")]⟩ ["a"]).2 = none ∧
    (handle_gitkeep ⟨[(["a"], .dir), (["a", "f"], .file "x"),
        (["a", ".gitkeep"], .file "")]⟩ ["a"]).1.pathExists (["a"] ++ [gitkeepName]) = false ∧
    (handle_gitkeep ⟨[(["a"], .dir), (["a", "f"], .file "x"),
        (["a", ".gitkeep"], .file "")]⟩ ["a"]).1.lookup ["a", "f"] =
      (FS.mk [(["a"], .dir), (["a", "f"], .file "x"), (["a", ".gitkeep"], .file "")]).lookup
        ["a", "f"] := by
  have h := handle_gitkeep_frame ⟨[(["a"], .dir), (["a", "f"], .file "x"),
    (["a", ".gitkeep"], .file "")]⟩ ["a"] (by decide) (by decide) (by decide)
  exact ⟨h.1, h.2.1, h.2.2 ["a", "f"] (by decide)⟩

/-- C6: the default configuration file is created with the fixed content
exactly when absent (its parent directory being a directory), an existing
file at that path makes the step a complete no-op, and no full run ever
changes the contents of an existing `application.properties`. -/
theorem application_properties_never_overwritten (fs : FS) (argv : List String) (c : String) :
    (fs.pathExists application_properties = true → appPropertiesStep fs = (fs, none)) ∧
    (fs.pathExists application_properties = false → fs.isDir resources_dir = true →
      (appPropertiesStep fs).2 = none ∧
      (appPropertiesStep fs).1.lookup application_properties =
        some (.file defaultPropertiesContent)) ∧
    (fs.lookup application_properties = some (.file c) →
      (runProgram argv fs).1.lookup application_properties = some (.file c)) := by
  refine ⟨appPropertiesStep_replay_of_exists, ?_, ?_⟩
  · intro hex hdir
    rcases appPropertiesStep_cases fs with ⟨hex2, _⟩ | ⟨_, hst⟩
    · rw [hex] at hex2
      cases hex2
    · rcases writeFile_states fs application_properties defaultPropertiesContent with
        ⟨e, hw⟩ | hw
      · exfalso
        unfold FS.writeFile at hw
        rw [if_pos (Or.inr
          (show fs.isDir application_properties.dropLast = true from hdir))] at hw
        rw [(pathExists_false_iff _ _).mp hex] at hw
        cases congrArg Prod.snd hw
      · rw [hst, hw]
        exact ⟨rfl, lookup_insert_self _ _ _⟩
  · intro hc
    unfold runProgram
    by_cases hargc : argv.length ≠ 2
    · rw [if_pos hargc]
      exact hc
    · rw [if_neg hargc]
      rcases runCore_cases (packagePath (argv.getD 1 "")) fs with ⟨_, hrc⟩ | ⟨_, hrest⟩
      · rw [hrc]
        exact hc
      · have hc1 := @lookup_preserved_seq _ _ _ (targets (packagePath (argv.getD 1 "")))
          hc (by decide)
        rcases hrest with ⟨e, _, hrc⟩ | ⟨_, hrest2⟩
        · rw [hrc]
          exact hc1
        · rcases hrest2 with ⟨e, _, hrc⟩ | ⟨_, hrc⟩ <;> rw [hrc]
          · exact lookup_preserved_app hc1
          · exact lookup_preserved_app hc1

theorem application_properties_never_overwritten_witness :
    (appPropertiesStep ⟨[(["src", "main", "resources", "application.properties"],
        .file "x")]⟩ =
      (⟨[(["src", "main", "resources", "application.properties"], .file "x")]⟩, none)) ∧
    ((appPropertiesStep ⟨[(["src", "main", "resources"], .dir)]⟩).2 = none ∧
      (appPropertiesStep ⟨[(["src", "main", "resources"], .dir)]⟩).1.lookup
        application_properties = some (.file defaultPropertiesContent)) ∧
    ((runProgram demoArgv ⟨[(["src", "main", "resources", "application.properties"],
        .file "x")]⟩).1.lookup application_properties = some (.file "x")) :=
  ⟨(application_properties_never_overwritten _ demoArgv "x").1 (by decide),
   (application_properties_never_overwritten _ demoArgv "x").2.1 (by decide) (by decide),
   (application_properties_never_overwritten _ demoArgv "x").2.2 (by decide)⟩

/-- C7: with an argument count other than exactly one (list length of
`sys.argv` other than two), the program exits with status 1 and the
filesystem state is returned unchanged. -/
theorem usage_error_no_mutation (argv : List String) (fs : FS)
    (h : argv.length ≠ 2) : runProgram argv fs = (fs, .exited 1) := by
  unfold runProgram
  rw [if_pos h]

theorem usage_error_no_mutation_witness :
    runProgram ["update_springboot_structure.py"] demoFS0 = (demoFS0, .exited 1) :=
  usage_error_no_mutation _ _ (by decide)

/-- C8: when the namespace's main-source base directory does not exist, the
program exits with status 1 and the filesystem state is returned
unchanged. -/
theorem missing_base_package_no_mutation (prog ns : String) (fs : FS)
    (h : fs.pathExists (src_main_java ++ packagePath ns) = false) :
    runProgram [prog, ns] fs = (fs, .exited 1) := by
  unfold runProgram
  rw [if_neg (by simp)]
  unfold runCore
  rw [show [prog, ns].getD 1 "" = ns from rfl, if_pos h]

theorem missing_base_package_no_mutation_witness :
    (FS.mk []).pathExists (src_main_java ++ packagePath "com.example.demo") = false ∧
    runProgram ["update_springboot_structure.py", "com.example.demo"] ⟨[]⟩ =
      (⟨[]⟩, .exited 1) :=
  ⟨by decide, missing_base_package_no_mutation _ _ _ (by decide)⟩

/-- C9: on a path that exists as a regular file, `create_directory` takes
the already-exists branch without checking that the path is a directory,
and the reconciler's directory listing then raises `NotADirectoryError`,
leaving the state unchanged: no guard makes this error branch
unreachable. -/
theorem create_directory_on_file_raises (fs : FS) (p : FsPath)
    (h : fs.isFile p = true) :
    create_directory fs p = (fs, some .notADirectory) := by
  obtain ⟨c, hc⟩ : ∃ c, fs.lookup p = some (.file c) := by
    unfold FS.isFile at h
    cases hx : fs.lookup p with
    | none =>
      rw [hx] at h
      cases h
    | some e0 =>
      cases e0 with
      | dir =>
        rw [hx] at h
        cases h
      | file c => exact ⟨c, rfl⟩
  have hex : ¬ fs.pathExists p = false := by
    simp [FS.pathExists, hc]
  unfold create_directory
  rw [if_neg hex]
  unfold handle_gitkeep FS.listdir
  rw [hc]

theorem create_directory_on_file_raises_witness :
    (FS.mk [(["a"], .file "x")]).isFile ["a"] = true ∧
    create_directory ⟨[(["a"], .file "x")]⟩ ["a"] =
      (⟨[(["a"], .file "x")]⟩, some .notADirectory) :=
  ⟨by decide, create_directory_on_file_raises _ _ (by decide)⟩

/-! ### The frame property of a whole run -/

/-- One synchronizer step changes an association only by creating a fresh
entry or by removing its own target's marker file. -/
theorem create_directory_frame {fs : FS} {q r : FsPath}
    (hch : (create_directory fs q).1.lookup r ≠ fs.lookup r) :
    fs.lookup r = none ∨
    (r = q ++ [gitkeepName] ∧ (∃ c, fs.lookup r = some (.file c)) ∧
      (create_directory fs q).1.lookup r = none ∧
      childrenExcept (create_directory fs q).1 q ≠ []) := by
  rcases create_directory_cases fs q with ⟨_, hcd⟩ | ⟨_, hmk, hcd⟩ | ⟨_, _, hcd⟩
  · rw [hcd] at hch ⊢
    rcases handle_gitkeep_states fs q with hst | ⟨_, hnone, hst⟩ | ⟨hneB, ⟨c, hfile⟩, hst⟩
    · rw [hst] at hch
      exact absurd rfl hch
    · rw [hst] at hch ⊢
      by_cases hr : q ++ [gitkeepName] = r
      · left
        rw [← hr]
        exact hnone
      · rw [lookup_insert_ne _ _ _ _ hr] at hch
        exact absurd rfl hch
    · rw [hst] at hch ⊢
      by_cases hr : q ++ [gitkeepName] = r
      · right
        subst hr
        refine ⟨rfl, ⟨c, hfile⟩, ?_, ?_⟩
        · rw [lookup_erase, if_pos rfl]
        · rw [childrenExcept_erase_gk_end _ _ (getLast?_append_single q gitkeepName)]
          exact hneB
      · rw [lookup_erase, if_neg hr] at hch
        exact absurd rfl hch
  · rw [hcd] at hch ⊢
    by_cases hmchange : (fs.makedirs q).1.lookup r = fs.lookup r
    · rcases handle_gitkeep_states (fs.makedirs q).1 q with hst | ⟨_, hnone, hst⟩ |
        ⟨hneB, ⟨c, hfile⟩, hst⟩
      · rw [hst] at hch
        exact absurd hmchange hch
      · rw [hst] at hch ⊢
        by_cases hr : q ++ [gitkeepName] = r
        · left
          rw [← hmchange, ← hr]
          exact hnone
        · rw [lookup_insert_ne _ _ _ _ hr] at hch
          exact absurd hmchange hch
      · rw [hst] at hch ⊢
        by_cases hr : q ++ [gitkeepName] = r
        · right
          subst hr
          refine ⟨rfl, ⟨c, by rw [← hmchange]; exact hfile⟩, ?_, ?_⟩
          · rw [lookup_erase, if_pos rfl]
          · rw [childrenExcept_erase_gk_end _ _ (getLast?_append_single q gitkeepName)]
            exact hneB
        · rw [lookup_erase, if_neg hr] at hch
          exact absurd hmchange hch
    · left
      cases hx : fs.lookup r with
      | none => rfl
      | some v =>
        exact absurd (makedirs_preserves_some hx) (by rw [hx] at hmchange; exact hmchange)
  · rw [hcd] at hch ⊢
    dsimp only at hch ⊢
    cases hx : fs.lookup r with
    | none => exact Or.inl rfl
    | some v =>
      exact absurd (makedirs_preserves_some hx) (by rw [hx] at hch; exact hch)

/-- Once a marker is gone and its directory has other entries, a whole pass
never recreates it. -/
theorem gk_absent_seq {fs : FS} {g : FsPath} {us : List FsPath}
    (hnone : fs.lookup (g ++ [gitkeepName]) = none)
    (hne : childrenExcept fs g ≠ [])
    (hgk : ∀ u ∈ us, gitkeepName ∉ u) :
    (execSync fs us).1.lookup (g ++ [gitkeepName]) = none := by
  induction us generalizing fs with
  | nil => exact hnone
  | cons u rest ih =>
    rw [execSync_cons]
    obtain ⟨h1, h2⟩ := gk_absent_step hnone hne (hgk u (List.mem_cons_self u rest))
    by_cases hoe : (create_directory fs u).2 = none
    · rw [if_pos hoe]
      exact ih h1 h2 fun x hx => hgk x (List.mem_cons_of_mem _ hx)
    · rw [if_neg hoe]
      exact h1

/-- Frame property of a pass: any change is either the creation of a fresh
entry or the removal of one processed directory's marker file. -/
theorem execSync_frame {us : List FsPath} {fs : FS} {r : FsPath}
    (hgk : ∀ u ∈ us, gitkeepName ∉ u)
    (hch : (execSync fs us).1.lookup r ≠ fs.lookup r) :
    fs.lookup r = none ∨
    ((∃ u ∈ us, r = u ++ [gitkeepName]) ∧ (∃ c, fs.lookup r = some (.file c)) ∧
      (execSync fs us).1.lookup r = none) := by
  induction us generalizing fs with
  | nil => exact absurd rfl hch
  | cons u rest ih =>
    rw [execSync_cons] at hch ⊢
    by_cases hoe : (create_directory fs u).2 = none
    · rw [if_pos hoe] at hch ⊢
      by_cases hstep : (create_directory fs u).1.lookup r = fs.lookup r
      · have hch2 : (execSync (create_directory fs u).1 rest).1.lookup r ≠
            (create_directory fs u).1.lookup r := by
          rw [hstep]
          exact hch
        rcases ih (fun x hx => hgk x (List.mem_cons_of_mem _ hx)) hch2 with
          h1 | ⟨⟨u', hu', hru⟩, ⟨c, hc⟩, hfin⟩
        · left
          rw [← hstep]
          exact h1
        · exact Or.inr ⟨⟨u', List.mem_cons_of_mem _ hu', hru⟩,
            ⟨c, by rw [← hstep]; exact hc⟩, hfin⟩
      · rcases create_directory_frame hstep with h1 | ⟨hru, ⟨c, hc⟩, hnone, hcne⟩
        · exact Or.inl h1
        · right
          subst hru
          exact ⟨⟨u, List.mem_cons_self u rest, rfl⟩, ⟨c, hc⟩,
            gk_absent_seq hnone hcne fun x hx => hgk x (List.mem_cons_of_mem _ hx)⟩
    · rw [if_neg hoe] at hch ⊢
      dsimp only at hch ⊢
      rcases create_directory_frame hch with h1 | ⟨hru, ⟨c, hc⟩, hnone, _⟩
      · exact Or.inl h1
      · exact Or.inr ⟨⟨u, List.mem_cons_self u rest, hru⟩, ⟨c, hc⟩, hnone⟩

/-- Frame property of a pass followed by the configuration-file step. -/
theorem runCoreTail_frame {B : FsPath} {fs : FS} {r : FsPath}
    (hgk : ∀ u ∈ targets B, gitkeepName ∉ u)
    (hch : (appPropertiesStep (execSync fs (targets B)).1).1.lookup r ≠ fs.lookup r) :
    fs.lookup r = none ∨
    ((∃ d ∈ targets B, r = d ++ [gitkeepName]) ∧ (∃ c, fs.lookup r = some (.file c)) ∧
      (appPropertiesStep (execSync fs (targets B)).1).1.lookup r = none) := by
  by_cases happch : (appPropertiesStep (execSync fs (targets B)).1).1.lookup r =
      (execSync fs (targets B)).1.lookup r
  · rw [happch] at hch
    rcases execSync_frame hgk hch with h1 | ⟨hmem, hfile, hfin⟩
    · exact Or.inl h1
    · right
      refine ⟨hmem, hfile, ?_⟩
      rw [happch]
      exact hfin
  · rcases appPropertiesStep_result (execSync fs (targets B)).1 with hst | ⟨hnone1, hst⟩
    · rw [hst] at happch
      exact absurd rfl happch
    · rw [hst] at happch
      by_cases hr : application_properties = r
      · left
        cases hx : fs.lookup r with
        | none => rfl
        | some v =>
          exfalso
          have hpres := @lookup_preserved_seq _ _ _ (targets B) hx
            (by rw [← hr]; decide)
          rw [← hr, hnone1] at hpres
          cases hpres
      · rw [lookup_insert_ne _ _ _ _ hr] at happch
        exact absurd rfl happch

/-- C10: the only association a run ever changes is either a previously
absent path that gets created, or the marker file of one of the directories
the run processes, which gets removed; in particular no directory is ever
removed and no existing file is ever written to. -/
theorem runProgram_removes_only_gitkeep (argv : List String) (fs : FS) (r : FsPath)
    (hch : (runProgram argv fs).1.lookup r ≠ fs.lookup r) :
    fs.lookup r = none ∨
    ((∃ d ∈ targets (packagePath (argv.getD 1 "")), r = d ++ [gitkeepName]) ∧
      (∃ c, fs.lookup r = some (.file c)) ∧
      (runProgram argv fs).1.lookup r = none) := by
  unfold runProgram at hch ⊢
  by_cases hargc : argv.length ≠ 2
  · rw [if_pos hargc] at hch
    exact absurd rfl hch
  · rw [if_neg hargc] at hch ⊢
    have hgk := @targets_no_gk (argv.getD 1 "")
    rcases runCore_cases (packagePath (argv.getD 1 "")) fs with ⟨_, hrc⟩ | ⟨_, hrest⟩
    · rw [hrc] at hch
      exact absurd rfl hch
    · rcases hrest with ⟨e, _, hrc⟩ | ⟨_, hrest2⟩
      · rw [hrc] at hch ⊢
        dsimp only at hch ⊢
        exact execSync_frame hgk hch
      · rcases hrest2 with ⟨e, _, hrc⟩ | ⟨_, hrc⟩ <;>
          (rw [hrc] at hch ⊢; dsimp only at hch ⊢; exact runCoreTail_frame hgk hch)

theorem runProgram_removes_only_gitkeep_witness :
    ((runProgram demoArgv ⟨[(["src"], .dir), (["src", "main"], .dir),
        (["src", "main", "java"], .dir), (["src", "main", "java", "com"], .dir),
        (["src", "main", "java", "com", "example"], .dir),
        (["src", "main", "java", "com", "example", "demo"], .dir),
        (["src", "main", "java", "com", "example", "demo", "controller"], .dir),
        (["src", "main", "java", "com", "example", "demo", "controller", "Foo.java"],
          .file "class Foo {}"),
        (["src", "main", "java", "com", "example", "demo", "controller", ".gitkeep"],
          .file "")]⟩).1.lookup
      ["src", "main", "java", "com", "example", "demo", "controller", ".gitkeep"] ≠
      (FS.mk [(["src"], .dir), (["src", "main"], .dir),
        (["src", "main", "java"], .dir), (["src", "main", "java", "com"], .dir),
        (["src", "main", "java", "com", "example"], .dir),
        (["src", "main", "java", "com", "example", "demo"], .dir),
        (["src", "main", "java", "com", "example", "demo", "controller"], .dir),
        (["src", "main", "java", "com", "example", "demo", "controller", "Foo.java"],
          .file "class Foo {}"),
        (["src", "main", "java", "com", "example", "demo", "controller", ".gitkeep"],
          .file "")]).lookup
      ["src", "main", "java", "com", "example", "demo", "controller", ".gitkeep"]) ∧
    ((FS.mk [(["src"], .dir), (["src", "main"], .dir),
        (["src", "main", "java"], .dir), (["src", "main", "java", "com"], .dir),
        (["src", "main", "java", "com", "example"], .dir),
        (["src", "main", "java", "com", "example", "demo"], .dir),
        (["src", "main", "java", "com", "example", "demo", "controller"], .dir),
        (["src", "main", "java", "com", "example", "demo", "controller", "Foo.java"],
          .file "class Foo {}"),
        (["src", "main", "java", "com", "example", "demo", "controller", ".gitkeep"],
          .file "")]).lookup
      ["src", "main", "java", "com", "example", "demo", "controller", ".gitkeep"] = none ∨
    ((∃ d ∈ targets (packagePath (demoArgv.getD 1 "")),
        ["src", "main", "java", "com", "example", "demo", "controller", ".gitkeep"] =
          d ++ [gitkeepName]) ∧
      (∃ c, (FS.mk [(["src"], .dir), (["src", "main"], .dir),
        (["src", "main", "java"], .dir), (["src", "main", "java", "com"], .dir),
        (["src", "main", "java", "com", "example"], .dir),
        (["src", "main", "java", "com", "example", "demo"], .dir),
        (["src", "main", "java", "com", "example", "demo", "controller"], .dir),
        (["src", "main", "java", "com", "example", "demo", "controller", "Foo.java"],
          .file "class Foo {}"),
        (["src", "main", "java", "com", "example", "demo", "controller", ".gitkeep"],
          .file "")]).lookup
        ["src", "main", "java", "com", "example", "demo", "controller", ".gitkeep"] =
          some (.file c)) ∧
      (runProgram demoArgv ⟨[(["src"], .dir), (["src", "main"], .dir),
        (["src", "main", "java"], .dir), (["src", "main", "java", "com"], .dir),
        (["src", "main", "java", "com", "example"], .dir),
        (["src", "main", "java", "com", "example", "demo"], .dir),
        (["src", "main", "java", "com", "example", "demo", "controller"], .dir),
        (["src", "main", "java", "com", "example", "demo", "controller", "Foo.java"],
          .file "class Foo {}"),
        (["src", "main", "java", "com", "example", "demo", "controller", ".gitkeep"],
          .file "")]⟩).1.lookup
        ["src", "main", "java", "com", "example", "demo", "controller", ".gitkeep"] =
          none)) :=
  ⟨by decide, runProgram_removes_only_gitkeep demoArgv _ _ (by decide)⟩

/-- C3, as stated, fails: on the worked example the run newly creates the
directory `src/test/java` (absent before, a directory afterwards), yet that
directory ends up containing the entry `com` and no marker at all, so not
every directory newly created by the run contains exactly the marker
file. -/
theorem newly_created_dir_without_marker :
    demoFS0.pathExists ["src", "test", "java"] = false ∧
    demoFS1.isDir ["src", "test", "java"] = true ∧
    "com" ∈ childNames demoFS1 ["src", "test", "java"] ∧
    gitkeepName ∉ childNames demoFS1 ["src", "test", "java"] := by decide

/-- C3 amended: given namespace `com.example.demo` and a pre-existing
`src/main/java/com/example/demo`, the run completes normally, every
directory it explicitly processes — the 12 package directories under both
source roots plus the two resource folders, all newly created here — exists
as a directory containing exactly the marker file, and
`application.properties` holds the fixed default line. -/
theorem demo_run_layout :
    (runProgram demoArgv demoFS0).2 = .ok ∧
    ((targets (packagePath "com.example.demo")).all fun t =>
      demoFS1.isDir t && (childNames demoFS1 t == [gitkeepName])) = true ∧
    demoFS1.lookup application_properties = some (.file defaultPropertiesContent) := by
  decide
